import Mathlib

/-!
# Verification development for the network-stack core of `spos`

Shallow embedding of
* `gvisor/stack/packet_buffer.go` (`PacketBuffer.headerOffset`, `PacketBuffer.Views`),
* `gvisor/buffer/view.go` (`VectorisedView.Read`),
* `gvisor/waiter/waiter.go` (`waiterList.PushBack`, `waiterList.Remove`,
  `Queue.EventRegister`, `Queue.EventUnregister`),
* `gvisor/tcpip/tcpip.go` (`SliceWriter.Write`),
* `gvisor/stack/stack.go` (`Stack.RemoveAddress`, `Stack.AddAddress`,
  `Stack.AddAddressWithOptions`, `Stack.AddProtocolAddressWithOptions`,
  `Stack.NewEndpoint`),
* the constants of `gvisor/stack/iptables.go`, `gvisor/stack/iptables_types.go` and
  `gvisor/tcpip/ports/flags.go`.

Go `int` is the 64-bit signed integer of the amd64 target; it is embedded as `Int`
with explicit wrap-around (`wrapInt`).  Slices of bytes are lists of bytes.
Pointers to wait entries are addresses into an explicit heap and `none` is `nil`.
-/

namespace Spos

/-! ## Machine integers and bytes -/

/-- A byte of packet data. -/
abbrev Byte := Fin 256

/-- Go's `int` arithmetic on amd64: a result is brought back into
`-2^63 .. 2^63 - 1` by wrapping modulo `2^64`. -/
def wrapInt (x : Int) : Int :=
  (x + 9223372036854775808) % 18446744073709551616 - 9223372036854775808

/-- The values a Go `int` can hold. -/
def IsInt (x : Int) : Prop :=
  -9223372036854775808 ≤ x ∧ x < 9223372036854775808

instance (x : Int) : Decidable (IsInt x) := by
  unfold IsInt; exact inferInstance

/-! ## `gvisor/buffer`: chunked buffer (`buffer.go`, `buffer_list.go`, `view.go`) -/

/-- The struct `buffer` of `buffer.go`: a queueable byte buffer with a read and a
write cursor.  The list linkage (`bufferEntry`) is carried by the enclosing list. -/
structure buffer where
  data : List Byte
  read : Nat
  write : Nat

/-- Modelled from the spec: `buffer.ReadSlice` (absent from src/), the readable
region `data[read:write]` of a chunk ("a fixed-capacity byte region with independent
read/write cursors"). -/
def buffer.ReadSlice (b : buffer) : List Byte :=
  (b.data.take b.write).drop b.read

/-- The struct `View` of `view.go` (alias `Buffer`): a non-linear buffer.  `data` is
the intrusive `bufferList` read from `head` along `next`; `size` is the `int64`
field.  The `pool` field plays no role in reading. -/
structure Buffer where
  data : List buffer
  size : Int

/-- Modelled from the spec: `Buffer.Size` (absent from src/) returns the `size`
field, the number of bytes held. -/
def Buffer.Size (v : Buffer) : Int := v.size

/-- The bytes held by a buffer: the readable regions of its chunks, in order. -/
def Buffer.bytes (v : Buffer) : List Byte :=
  (v.data.map buffer.ReadSlice).flatten

/-- A buffer whose `size` field counts exactly the bytes it holds, as a Go `int`. -/
def Buffer.WF (v : Buffer) : Prop :=
  v.size = v.bytes.length ∧ IsInt v.size

instance (v : Buffer) : Decidable v.WF := by
  unfold Buffer.WF; exact inferInstance

/-- Loop of `SubApply`, chunk by chunk, threading the state `s` that the callback
`fn` updates.  Each step is one iteration of
`for buf := v.data.Front(); length > 0 && buf != nil; buf = buf.Next()`. -/
def SubApplyLoop {σ : Type} (fn : σ → List Byte → σ) :
    List buffer → Int → Int → σ → σ
  | [], _, _, s => s
  | buf :: rest, offset, length, s =>
    if length > 0 then
      let d := buf.ReadSlice
      if offset ≥ (d.length : Int) then
        -- offset -= len(d); continue
        SubApplyLoop fn rest (offset - d.length) length s
      else
        -- if offset > 0 { d = d[offset:]; offset = 0 }
        let d1 := if offset > 0 then d.drop offset.toNat else d
        let offset1 := if offset > 0 then 0 else offset
        -- if length < len(d) { d = d[:length] }
        let d2 := if length < (d1.length : Int) then d1.take length.toNat else d1
        -- fn(d); length -= len(d)
        SubApplyLoop fn rest offset1 (length - d2.length) (fn s d2)
    else s

/-- Modelled from the spec: `Buffer.SubApply(offset, length, fn)` of the buffer
package (absent from src/) applies `fn` to each span of the byte range
`[offset, offset+length)` of the buffer, chunk by chunk and without copying; any
part of the range outside the buffer is ignored. -/
def Buffer.SubApply {σ : Type} (v : Buffer) (offset length : Int)
    (fn : σ → List Byte → σ) (s : σ) : σ :=
  SubApplyLoop fn v.data offset length s

/-! ## `gvisor/stack/packet_buffer.go` -/

/-- The struct `PacketBuffer`, restricted to the buffer and its three cursors. -/
structure PacketBuffer where
  buf : Buffer
  reserved : Int
  pushed : Int
  consumed : Int

/-- Source: `func (pk *PacketBuffer) headerOffset() int { return pk.reserved - pk.pushed }`. -/
def PacketBuffer.headerOffset (pk : PacketBuffer) : Int :=
  wrapInt (pk.reserved - pk.pushed)

/-- Source: `PacketBuffer.Views`: collects the spans that
`pk.buf.SubApply(offset, int(pk.buf.Size())-offset, ...)` hands to the callback
`views = append(views, v)`. -/
def PacketBuffer.Views (pk : PacketBuffer) : List (List Byte) :=
  let offset := pk.headerOffset
  pk.buf.SubApply offset (wrapInt (pk.buf.Size - offset))
    (fun (views : List (List Byte)) v => views ++ [v]) []

/-- The cursors of a packet are Go `int` values. -/
def PacketBuffer.IntFields (pk : PacketBuffer) : Prop :=
  IsInt pk.reserved ∧ IsInt pk.pushed ∧ IsInt pk.consumed

instance (pk : PacketBuffer) : Decidable pk.IntFields := by
  unfold PacketBuffer.IntFields; exact inferInstance

/-! ## `gvisor/buffer/view.go`: `VectorisedView` -/

/-- A view held by a `VectorisedView`.  `Read` takes its `len`, slices it and copies
from it: it is a slice of bytes. -/
abbrev View := List Byte

/-- The struct `VectorisedView`: a vectorised version of `View` using non contiguous
memory; `size` is a Go `int`. -/
structure VectorisedView where
  views : List View
  size : Int

/-- Source: `NewVectorisedView(size, views)` stores both arguments as given. -/
def NewVectorisedView (size : Int) (views : List View) : VectorisedView :=
  { views := views, size := size }

/-- The error values of package `io` that the embedded code returns; Go's `nil` error
is `none` of `Option error`. -/
inductive error where
  | EOF
  | ErrShortWrite
  deriving DecidableEq, Repr

/-- Go's builtin `copy(dst, src)`: the first `min(len(dst), len(src))` elements of `dst`
are overwritten by those of `src`; the value is the new content of `dst`. -/
def copy (dst src : List Byte) : List Byte :=
  src.take dst.length ++ dst.drop src.length

/-- Modelled from the spec: `View.TrimFront(count)` (absent from src/) removes the
first `count` bytes of the view ("consumes views in order"). -/
def View.TrimFront (v : View) (count : Nat) : View :=
  v.drop count

/-- Modelled from the spec: `VectorisedView.removeFirst()` (absent from src/) drops
the first view and subtracts its length from `size` ("decrementing total size as data is
copied out").  `Read` calls it only when a first view exists. -/
def VectorisedView.removeFirst (vv : VectorisedView) : VectorisedView :=
  match vv.views with
  | [] => vv
  | v :: rest => { views := rest, size := wrapInt (vv.size - v.length) }

/-- What a call of `Read` leaves behind: the receiver `vv`, the destination `b`, and the
two results `copied` and `err`. -/
structure ReadResult where
  vv : VectorisedView
  b : List Byte
  copied : Nat
  err : Option error

/-- Tail of `Read` after the loop: `if copied == 0 { return 0, io.EOF }; return copied, nil`. -/
def ReadExit (vv : VectorisedView) (b : List Byte) (copied : Nat) : ReadResult :=
  if copied = 0 then { vv := vv, b := b, copied := 0, err := some error.EOF }
  else { vv := vv, b := b, copied := copied, err := none }

/-- The loop `for count > 0 && len(vv.views) > 0` of `Read`, by recursion on `vv.views`
(each iteration either returns or removes the first view), on the values held: the views
and the destination are lists of bytes of their own.  `count` and `copied` stay within
`0 .. len(b)`, so they are kept as natural numbers.  On any storage this gives `copied`,
`err`, `size` and the lengths of the views; it gives the bytes as well when `b` shares no
storage with the views.  `ReadMemLoop` is the loop on shared storage. -/
def ReadLoop : List View → Int → List Byte → Nat → Nat → ReadResult
  | [], size, b, _, copied => ReadExit { views := [], size := size } b copied
  | v :: rest, size, b, count, copied =>
    if count > 0 then
      if count < v.length then
        -- vv.size -= count; copy(b[copied:], vv.views[0][:count])
        -- vv.views[0].TrimFront(count); copied += count; return copied, nil
        { vv := { views := View.TrimFront v count :: rest, size := wrapInt (size - count) },
          b := b.take copied ++ copy (b.drop copied) (v.take count),
          copied := copied + count,
          err := none }
      else
        -- count -= len(vv.views[0]); copy(b[copied:], vv.views[0])
        -- copied += len(vv.views[0]); vv.removeFirst()
        ReadLoop rest (VectorisedView.removeFirst { views := v :: rest, size := size }).size
          (b.take copied ++ copy (b.drop copied) v) (count - v.length) (copied + v.length)
    else ReadExit { views := v :: rest, size := size } b copied

/-- Source: `func (vv *VectorisedView) Read(b []byte) (copied int, err error)`,
with `count := len(b)` and `copied` starting at 0, on the values held (see `ReadLoop`);
`SliceVectorisedView.Read` is the same function on shared storage. -/
def VectorisedView.Read (vv : VectorisedView) (b : List Byte) : ReadResult :=
  ReadLoop vv.views vv.size b b.length 0

/-- The in-order concatenation of the views. -/
def VectorisedView.bytes (vv : VectorisedView) : List Byte :=
  vv.views.flatten

/-! ## `gvisor/waiter/waiter.go`: the wait queue -/

/-- The type `EventMask` (`uint64`); the embedded code only stores it. -/
abbrev EventMask := Nat

/-- The address of an `Entry`.  A `*Entry` is an `Option Ptr`, `none` being `nil`. -/
abbrev Ptr := Nat

/-- The struct `Entry` with its embedded `waiterEntry` (`next`, `prev`).  The
`Callback` field is never read or written by the embedded functions. -/
structure Entry where
  mask : EventMask
  next : Option Ptr
  prev : Option Ptr
  deriving DecidableEq, Repr

/-- The memory holding the entries, by address. -/
abbrev Heap := Ptr → Entry

/-- Store `v` at address `p`. -/
def Heap.set (h : Heap) (p : Ptr) (v : Entry) : Heap :=
  fun q => if q = p then v else h q

/-- The struct `waiterList`. -/
structure waiterList where
  head : Option Ptr
  tail : Option Ptr
  deriving DecidableEq, Repr

/-- The struct `Queue`; the mutex `mu` only serialises the calls. -/
structure Queue where
  list : waiterList
  deriving DecidableEq, Repr

/-- Source: `waiterElementMapper.linkerFor`, the identity. -/
def linkerFor (elem : Ptr) : Ptr := elem

/-- Source: `func (e *waiterEntry) SetNext(elem *Entry) { e.next = elem }`. -/
def SetNext (h : Heap) (e : Ptr) (elem : Option Ptr) : Heap :=
  Heap.set h e { h e with next := elem }

/-- Source: `func (e *waiterEntry) SetPrev(elem *Entry) { e.prev = elem }`. -/
def SetPrev (h : Heap) (e : Ptr) (elem : Option Ptr) : Heap :=
  Heap.set h e { h e with prev := elem }

/-- Source: `func (e *waiterEntry) Next() *Entry { return e.next }`. -/
def Next (h : Heap) (e : Ptr) : Option Ptr := (h e).next

/-- Source: `func (e *waiterEntry) Prev() *Entry { return e.prev }`. -/
def Prev (h : Heap) (e : Ptr) : Option Ptr := (h e).prev

/-- Source: `func (l *waiterList) PushBack(e *Entry)`, for a non-nil `e`. -/
def waiterList.PushBack (l : waiterList) (h : Heap) (e : Ptr) : waiterList × Heap :=
  let linker := linkerFor e
  -- linker.SetNext(nil); linker.SetPrev(l.tail)
  let h1 := SetNext h linker none
  let h2 := SetPrev h1 linker l.tail
  match l.tail with
  | some t =>
    -- linkerFor(l.tail).SetNext(e); l.tail = e
    ({ head := l.head, tail := some e }, SetNext h2 (linkerFor t) (some e))
  | none =>
    -- l.head = e; l.tail = e
    ({ head := some e, tail := some e }, h2)

/-- Source: `func (l *waiterList) Remove(e *Entry)`, for a non-nil `e`. -/
def waiterList.Remove (l : waiterList) (h : Heap) (e : Ptr) : waiterList × Heap :=
  let linker := linkerFor e
  let prev := Prev h linker
  let next := Next h linker
  -- if prev != nil { prev.SetNext(next) } else if l.head == e { l.head = next }
  let s1 : waiterList × Heap :=
    match prev with
    | some p => (l, SetNext h (linkerFor p) next)
    | none => if l.head = some e then ({ l with head := next }, h) else (l, h)
  -- if next != nil { next.SetPrev(prev) } else if l.tail == e { l.tail = prev }
  let s2 : waiterList × Heap :=
    match next with
    | some n => (s1.1, SetPrev s1.2 (linkerFor n) prev)
    | none => if s1.1.tail = some e then ({ s1.1 with tail := prev }, s1.2) else s1
  -- linker.SetNext(nil); linker.SetPrev(nil)
  let h3 := SetNext s2.2 linker none
  let h4 := SetPrev h3 linker none
  (s2.1, h4)

/-- Source: `func (q *Queue) EventRegister(e *Entry, mask EventMask)`, for a non-nil
`e`: `e.mask = mask; q.list.PushBack(e)` under the queue lock. -/
def Queue.EventRegister (q : Queue) (h : Heap) (e : Ptr) (mask : EventMask) : Queue × Heap :=
  let h1 := Heap.set h e { h e with mask := mask }
  let r := q.list.PushBack h1 e
  ({ list := r.1 }, r.2)

/-- Source: `func (q *Queue) EventUnregister(e *Entry)`, for a non-nil `e`:
`q.list.Remove(e)` under the queue lock. -/
def Queue.EventUnregister (q : Queue) (h : Heap) (e : Ptr) : Queue × Heap :=
  let r := q.list.Remove h e
  ({ list := r.1 }, r.2)

/-- The entries `es` are chained in this order through `next` and `prev`, the first
having `prev = p` and the last `next = nil`. -/
def Linked (h : Heap) : Option Ptr → List Ptr → Prop
  | _, [] => True
  | p, a :: rest => (h a).prev = p ∧ (h a).next = rest.head? ∧ Linked h (some a) rest

instance Linked.decide (h : Heap) : ∀ (p : Option Ptr) (es : List Ptr), Decidable (Linked h p es)
  | _, [] => isTrue trivial
  | p, a :: rest =>
    have := Linked.decide h (some a) rest
    (inferInstance : Decidable ((h a).prev = p ∧ (h a).next = rest.head? ∧ Linked h (some a) rest))

/-- A well-formed wait queue whose linked entries, in order, are `es`: no entry occurs
twice, `head` and `tail` are the first and the last entry (`nil` for the empty queue),
and the entries are chained from `head` to `tail`. -/
def Queue.Holds (q : Queue) (h : Heap) (es : List Ptr) : Prop :=
  es.Nodup ∧ q.list.head = es.head? ∧ q.list.tail = es.getLast? ∧ Linked h none es

instance (q : Queue) (h : Heap) (es : List Ptr) : Decidable (q.Holds h es) := by
  unfold Queue.Holds; exact inferInstance

/-- The last entry of `es`, or `p` when `es` is empty. -/
def lastOr (p : Option Ptr) : List Ptr → Option Ptr
  | [] => p
  | a :: rest => lastOr (some a) rest

/-- An all-zero heap: every entry has mask 0 and nil links. -/
def Heap.zero : Heap := fun _ => { mask := 0, next := none, prev := none }

/-! ## `gvisor/tcpip/tcpip.go`: `SliceWriter` -/

/-- The type `SliceWriter` (`[]byte`): the bytes the slice currently refers to. -/
abbrev SliceWriter := List Byte

/-- The number returned by Go's builtin `copy(dst, src)`: `min(len(dst), len(src))`. -/
def copyCount (dst src : List Byte) : Nat :=
  min dst.length src.length

/-- What a call of `SliceWriter.Write` leaves behind: `storage` is the content, after the
call, of the bytes that `*s` referred to before it; `s` is the new value of `*s`; `n` and
`err` are the two results. -/
structure WriteResult where
  storage : List Byte
  s : SliceWriter
  n : Nat
  err : Option error

/-- Source: `func (s *SliceWriter) Write(b []byte) (int, error)`:
`n := copy(*s, b); *s = (*s)[n:]; if n != len(b) { err = io.ErrShortWrite }; return n, err`. -/
def SliceWriter.Write (s : SliceWriter) (b : List Byte) : WriteResult :=
  let n := copyCount s b
  let storage := copy s b
  { storage := storage,
    s := storage.drop n,
    n := n,
    err := if n ≠ b.length then some error.ErrShortWrite else none }

/-! ## `gvisor/tcpip` and `gvisor/stack/stack.go`: addresses and endpoints of a stack -/

/-- The kinds of `tcpip.Error` that the embedded code names (`errors.go`, `nic.go`); a
nil `tcpip.Error` is `none` of `Option Error`. -/
inductive Error where
  | ErrNoRoute
  | ErrConnectionRefused
  | ErrConnectStarted
  | ErrClosedForSend
  | ErrWouldBlock
  | ErrClosedForReceive
  | ErrDuplicateAddress
  | ErrUnknownNICID
  | ErrUnknownProtocol
  | ErrBadLocalAddress
  | ErrNotSupported
  deriving DecidableEq, Repr

/-- The type `tcpip.NICID` (`int32`). -/
abbrev NICID := Int

/-- The type `tcpip.NetworkProtocolNumber` (`uint32`). -/
abbrev NetworkProtocolNumber := Nat

/-- The type `tcpip.TransportProtocolNumber` (`uint32`). -/
abbrev TransportProtocolNumber := Nat

/-- The type `tcpip.Address`: a byte slice cast as a string. -/
abbrev Address := List Byte

/-- The struct `tcpip.AddressWithPrefix`. -/
structure AddressWithPrefix where
  Address : Address
  PrefixLen : Int
  deriving DecidableEq, Repr

/-- The struct `tcpip.ProtocolAddress`. -/
structure ProtocolAddress where
  Protocol : NetworkProtocolNumber
  AddressWithPrefix : AddressWithPrefix
  deriving DecidableEq, Repr

/-- The type `PrimaryEndpointBehavior` (`int`). -/
abbrev PrimaryEndpointBehavior := Int

/-- Source: `CanBePrimaryEndpoint PrimaryEndpointBehavior = iota`, the first of the block. -/
def CanBePrimaryEndpoint : PrimaryEndpointBehavior := 0

/-- Source: `FirstPrimaryEndpoint`, the second constant of the `iota` block. -/
def FirstPrimaryEndpoint : PrimaryEndpointBehavior := CanBePrimaryEndpoint + 1

/-- Source: `NeverPrimaryEndpoint`, the third constant of the `iota` block. -/
def NeverPrimaryEndpoint : PrimaryEndpointBehavior := FirstPrimaryEndpoint + 1

/-- A `*nic` held in the NIC table of a stack.  Its two methods used by the stack,
`removeAddress` and `addAddress`, run against the endpoints behind the NIC; they are
operations on the world `σ` of everything the stack itself does not hold. -/
structure nic (σ : Type) where
  removeAddress : Address → σ → Option Error × σ
  addAddress : ProtocolAddress → PrimaryEndpointBehavior → σ → Option Error × σ

/-- The interface `NetworkProtocol`, restricted to the method the embedded code calls. -/
structure NetworkProtocol (σ : Type) where
  DefaultPrefixLen : σ → Int × σ

/-- The interface `TransportProtocol`, restricted to the method the embedded code calls.
A `tcpip.Endpoint` and a `*waiter.Queue` are references (`none` for nil). -/
structure TransportProtocol (σ : Type) where
  NewEndpoint : NetworkProtocolNumber → Option Ptr → σ → (Option Ptr × Option Error) × σ

/-- The struct `transportProtocolState`, restricted to `proto`. -/
structure transportProtocolState (σ : Type) where
  proto : TransportProtocol σ

/-- The struct `Stack`, restricted to the three maps the embedded functions read.  A Go
map is its lookup function, `none` standing for an absent key; the locks only serialise
the calls. -/
structure Stack (σ : Type) where
  transportProtocols : TransportProtocolNumber → Option (transportProtocolState σ)
  networkProtocols : NetworkProtocolNumber → Option (NetworkProtocol σ)
  nics : NICID → Option (nic σ)

/-- Source: `func (s *Stack) RemoveAddress(id tcpip.NICID, addr tcpip.Address) tcpip.Error`. -/
def Stack.RemoveAddress {σ : Type} (s : Stack σ) (id : NICID) (addr : Address) (w : σ) :
    Option Error × σ :=
  match s.nics id with
  | some n => n.removeAddress addr w
  | none => (some Error.ErrUnknownNICID, w)

/-- Source: `func (s *Stack) AddProtocolAddressWithOptions(id, protocolAddress, peb)`. -/
def Stack.AddProtocolAddressWithOptions {σ : Type} (s : Stack σ) (id : NICID)
    (protocolAddress : ProtocolAddress) (peb : PrimaryEndpointBehavior) (w : σ) :
    Option Error × σ :=
  match s.nics id with
  | none => (some Error.ErrUnknownNICID, w)
  | some n => n.addAddress protocolAddress peb w

/-- Source: `func (s *Stack) AddAddressWithOptions(id, protocol, addr, peb)`.  The
arguments of the inner call are evaluated first, `netProto.DefaultPrefixLen()` among
them. -/
def Stack.AddAddressWithOptions {σ : Type} (s : Stack σ) (id : NICID)
    (protocol : NetworkProtocolNumber) (addr : Address) (peb : PrimaryEndpointBehavior)
    (w : σ) : Option Error × σ :=
  match s.networkProtocols protocol with
  | none => (some Error.ErrUnknownProtocol, w)
  | some netProto =>
    let r := netProto.DefaultPrefixLen w
    s.AddProtocolAddressWithOptions id
      { Protocol := protocol,
        AddressWithPrefix := { Address := addr, PrefixLen := r.1 } } peb r.2

/-- Source: `func (s *Stack) AddAddress(id, protocol, addr)`. -/
def Stack.AddAddress {σ : Type} (s : Stack σ) (id : NICID)
    (protocol : NetworkProtocolNumber) (addr : Address) (w : σ) : Option Error × σ :=
  s.AddAddressWithOptions id protocol addr CanBePrimaryEndpoint w

/-- Source: `func (s *Stack) NewEndpoint(transport, network, waiterQueue)`. -/
def Stack.NewEndpoint {σ : Type} (s : Stack σ) (transport : TransportProtocolNumber)
    (network : NetworkProtocolNumber) (waiterQueue : Option Ptr) (w : σ) :
    (Option Ptr × Option Error) × σ :=
  match s.transportProtocols transport with
  | none => ((none, some Error.ErrUnknownProtocol), w)
  | some t => t.proto.NewEndpoint network waiterQueue w

/-- A world that records the operations run on it, by a number each. -/
abbrev CallLog := List Nat

/-- A NIC whose operations record themselves: `removeAddress` logs 1 and reports
`ErrBadLocalAddress`, `addAddress` logs 2 and the prefix length handed to it. -/
def logNic : nic CallLog :=
  { removeAddress := fun _ w => (some Error.ErrBadLocalAddress, w ++ [1]),
    addAddress := fun pa _ w => (none, w ++ [2, pa.AddressWithPrefix.PrefixLen.toNat]) }

/-- A stack over `CallLog` with NIC 1, network protocol 2048 (prefix length 32, logs 3)
and transport protocol 17 (its `NewEndpoint` logs 4 and hands back the queue). -/
def logStack : Stack CallLog :=
  { transportProtocols := fun t =>
      if t = 17 then
        some { proto := { NewEndpoint := fun n wq w => ((wq, none), w ++ [4, n]) } }
      else none,
    networkProtocols := fun p =>
      if p = 2048 then some { DefaultPrefixLen := fun w => (32, w ++ [3]) } else none,
    nics := fun id => if id = 1 then some logNic else none }

/-- The reading of `AddAddress` to compare the source with: for a registered protocol
`netProto`, ask it for its default prefix length, then call
`AddProtocolAddressWithOptions(id, {Protocol, Address, PrefixLen}, CanBePrimaryEndpoint)`. -/
def Stack.AddAddressViaProtocolAddress {σ : Type} (s : Stack σ) (id : NICID)
    (protocol : NetworkProtocolNumber) (netProto : NetworkProtocol σ) (addr : Address)
    (w : σ) : Option Error × σ :=
  s.AddProtocolAddressWithOptions id
    { Protocol := protocol,
      AddressWithPrefix :=
        { Address := addr, PrefixLen := (netProto.DefaultPrefixLen w).1 } }
    CanBePrimaryEndpoint (netProto.DefaultPrefixLen w).2

/-! ## Go arrays -/

/-- A Go array `[n]T`: exactly `n` elements. -/
structure GoArray (α : Type) (n : Nat) where
  elems : List α
  size_eq : elems.length = n

/-- The index expression `a[i]` of Go: the element when `0 ≤ i < len(a)`, and `none`
where Go rejects the index (out of range). -/
def GoArray.get? {α : Type} {n : Nat} (a : GoArray α n) (i : Int) : Option α :=
  if 0 ≤ i then a.elems[i.toNat]? else none

/-! ## `gvisor/stack/iptables.go`, `gvisor/stack/iptables_types.go` -/

/-- The type `TableID` (`int`). -/
abbrev TableID := Int

/-- Source: `NATID TableID = iota`, the first constant of the block. -/
def NATID : TableID := 0

/-- Source: `MangleID`, the second constant of the `iota` block. -/
def MangleID : TableID := NATID + 1

/-- Source: `FilterID`, the third constant of the `iota` block. -/
def FilterID : TableID := MangleID + 1

/-- Source: `NumTables`, the fourth constant of the `iota` block. -/
def NumTables : TableID := FilterID + 1

/-- The type `Hook` (`uint`). -/
abbrev Hook := Nat

/-- Source: `Prerouting Hook = iota`, the first constant of the block. -/
def Prerouting : Hook := 0

/-- Source: `Input`, the second constant of the `iota` block. -/
def Input : Hook := Prerouting + 1

/-- Source: `Forward`, the third constant of the `iota` block. -/
def Forward : Hook := Input + 1

/-- Source: `Output`, the fourth constant of the `iota` block. -/
def Output : Hook := Forward + 1

/-- Source: `Postrouting`, the fifth constant of the `iota` block. -/
def Postrouting : Hook := Output + 1

/-- Source: `NumHooks`, the sixth constant of the `iota` block: the number of hooks. -/
def NumHooks : Hook := Postrouting + 1

/-- The struct `Table` over rules of type `ρ`: `Rules []Rule`,
`BuiltinChains [NumHooks]int`, `Underflows [NumHooks]int`. -/
structure Table (ρ : Type) where
  Rules : List ρ
  BuiltinChains : GoArray Int NumHooks
  Underflows : GoArray Int NumHooks

/-- The struct `IPTables` over rules of type `ρ`, restricted to its tables:
`v4Tables [NumTables]Table`, `v6Tables [NumTables]Table`, `modified`, and
`priorities [NumHooks][]TableID`. -/
structure IPTables (ρ : Type) where
  v4Tables : GoArray (Table ρ) NumTables.toNat
  v6Tables : GoArray (Table ρ) NumTables.toNat
  modified : Bool
  priorities : GoArray (List TableID) NumHooks

/-! ## `gvisor/tcpip/ports/flags.go` -/

/-- The type `BitFlags` (`uint32`). -/
abbrev BitFlags := Nat

/-- Source: `MostRecentFlag BitFlags = 1 << iota`, with `iota = 0`. -/
def MostRecentFlag : BitFlags := 1 <<< 0

/-- Source: `LoadBalancedFlag`, `1 << iota` with `iota = 1`. -/
def LoadBalancedFlag : BitFlags := 1 <<< 1

/-- Source: `TupleOnlyFlag`, `1 << iota` with `iota = 2`. -/
def TupleOnlyFlag : BitFlags := 1 <<< 2

/-- Source: `nextFlag`, `1 << iota` with `iota = 3`. -/
def nextFlag : BitFlags := 1 <<< 3

/-- Source: `FlagMask = nextFlag - 1`. -/
def FlagMask : BitFlags := nextFlag - 1

/-- Source: `MultiBindFlagMask = MostRecentFlag | LoadBalancedFlag`. -/
def MultiBindFlagMask : BitFlags := MostRecentFlag ||| LoadBalancedFlag

/-- The struct `FlagCounter`: `refs [nextFlag]int`. -/
structure FlagCounter where
  refs : GoArray Int nextFlag

/-! ## Sequences of calls on a wait queue -/

/-- A call on a wait queue: `EventRegister(e, mask)` or `EventUnregister(e)`. -/
inductive QueueOp where
  | register (e : Ptr) (mask : EventMask)
  | unregister (e : Ptr)
  deriving DecidableEq, Repr

/-- One call on the queue and the heap. -/
def Queue.step (s : Queue × Heap) : QueueOp → Queue × Heap
  | QueueOp.register e m => s.1.EventRegister s.2 e m
  | QueueOp.unregister e => s.1.EventUnregister s.2 e

/-- A sequence of calls, in order. -/
def Queue.run (s : Queue × Heap) (ops : List QueueOp) : Queue × Heap :=
  ops.foldl Queue.step s

/-- The zero value of `Queue`: "an empty queue ready for use". -/
def Queue.empty : Queue := { list := { head := none, tail := none } }

/-- Walking a list as the source documents it,
`for e := l.Front(); e != nil; e = e.Next()`, for at most `fuel` entries: the entries
visited when `nil` is reached, `none` when it is not reached within `fuel` entries. -/
def walk (h : Heap) : Nat → Option Ptr → Option (List Ptr)
  | _, none => some []
  | 0, some _ => none
  | fuel + 1, some a => (walk h fuel (h a).next).map (fun es => a :: es)

/-- The entries registered and not unregistered since, in the order of registration,
after one call. -/
def QueueOp.track (es : List Ptr) : QueueOp → List Ptr
  | QueueOp.register e _ => es ++ [e]
  | QueueOp.unregister e => es.erase e

/-- The entries registered and not unregistered since, after a sequence of calls. -/
def linkedAfter (es : List Ptr) (ops : List QueueOp) : List Ptr :=
  ops.foldl QueueOp.track es

/-- No call of the sequence registers an entry that is registered and not yet
unregistered at that point; `es` are the entries registered at the start. -/
def NoDoubleRegister : List Ptr → List QueueOp → Prop
  | _, [] => True
  | es, QueueOp.register e m :: rest =>
    e ∉ es ∧ NoDoubleRegister (QueueOp.track es (QueueOp.register e m)) rest
  | es, QueueOp.unregister e :: rest =>
    NoDoubleRegister (QueueOp.track es (QueueOp.unregister e)) rest

instance NoDoubleRegister.decide :
    ∀ (es : List Ptr) (ops : List QueueOp), Decidable (NoDoubleRegister es ops)
  | _, [] => isTrue trivial
  | es, QueueOp.register e m :: rest =>
    have := NoDoubleRegister.decide (QueueOp.track es (QueueOp.register e m)) rest
    (inferInstance : Decidable
      (e ∉ es ∧ NoDoubleRegister (QueueOp.track es (QueueOp.register e m)) rest))
  | es, QueueOp.unregister e :: rest =>
    NoDoubleRegister.decide (QueueOp.track es (QueueOp.unregister e)) rest

/-- Every entry outside `es` has nil links, as a fresh `Entry` has. -/
def Unlinked (h : Heap) (es : List Ptr) : Prop :=
  ∀ x, x ∉ es → (h x).next = none ∧ (h x).prev = none

/-! ## Reading a vectorised view in chunks -/

/-- Reading to the end: `Read` is called on the same destination `b` again and again
until it returns `io.EOF`, and the bytes `b[0:copied]` of every call are concatenated.
At most `fuel` calls are made; `none` when `io.EOF` has not been returned by then. -/
def readAll : Nat → VectorisedView → List Byte → Option (List Byte)
  | 0, _, _ => none
  | fuel + 1, vv, b =>
    if (vv.Read b).err = some error.EOF then some []
    else
      (readAll fuel (vv.Read b).vv (vv.Read b).b).map
        (fun rest => (vv.Read b).b.take (vv.Read b).copied ++ rest)

/-! ## Well-formedness of the wait list, condition by condition -/

/-- The wait list is well formed with next-chain `es`: `head` is nil iff `tail` is nil,
`head.prev = nil`, `tail.next = nil`, `a.next = b` iff `b.prev = a` for the entries of the
chain, and the next-chain from `head` is finite (the walk reaches nil, having visited
`es`) and ends at `tail`. -/
def Queue.WellFormed (q : Queue) (h : Heap) (es : List Ptr) : Prop :=
  (q.list.head = none ↔ q.list.tail = none) ∧
  (∀ a ∈ q.list.head, (h a).prev = none) ∧
  (∀ a ∈ q.list.tail, (h a).next = none) ∧
  (∀ a ∈ es, ∀ b ∈ es, ((h a).next = some b ↔ (h b).prev = some a)) ∧
  walk h es.length q.list.head = some es ∧
  es.getLast? = q.list.tail

instance (q : Queue) (h : Heap) (es : List Ptr) : Decidable (q.WellFormed h es) := by
  unfold Queue.WellFormed; exact inferInstance

/-! ## `VectorisedView.Read` on shared storage -/

/-- The byte memory that slices refer to, by address. -/
abbrev Mem := Nat → Byte

/-- A Go slice of bytes as a window on the memory: the `len` bytes from address `off`.
Two slices may refer to the same bytes. -/
structure Slice where
  off : Nat
  len : Nat
  deriving DecidableEq, Repr

/-- The bytes a slice refers to, in order. -/
def Slice.read (m : Mem) (s : Slice) : List Byte :=
  (List.range s.len).map (fun i => m (s.off + i))

/-- The slice expression `s[i:]`. -/
def Slice.after (s : Slice) (i : Nat) : Slice :=
  { off := s.off + i, len := s.len - i }

/-- The slice expression `s[:j]`. -/
def Slice.first (s : Slice) (j : Nat) : Slice :=
  { off := s.off, len := j }

/-- The memory with the bytes `bs` stored from address `off` on. -/
def Mem.write (m : Mem) (off : Nat) (bs : List Byte) : Mem :=
  fun a => if off ≤ a then (bs[a - off]?).getD (m a) else m a

/-- A memory holding the bytes of `l` from address 0 on, and 0 elsewhere. -/
def Mem.ofList (l : List Byte) : Mem :=
  fun a => l.getD a 0

/-- Go's builtin `copy(dst, src)` on the memory: the first `min(len(dst), len(src))` bytes
of `src`, as they are before the call, are stored at the start of `dst` (the two may
overlap). -/
def copyMem (m : Mem) (dst src : Slice) : Mem :=
  Mem.write m dst.off ((src.read m).take dst.len)

/-- Two slices share no byte. -/
def Slice.Disjoint (s t : Slice) : Prop :=
  s.len = 0 ∨ t.len = 0 ∨ s.off + s.len ≤ t.off ∨ t.off + t.len ≤ s.off

instance (s t : Slice) : Decidable (s.Disjoint t) := by
  unfold Slice.Disjoint; exact inferInstance

/-- The struct `VectorisedView` with its views as slices of the memory. -/
structure SliceVectorisedView where
  views : List Slice
  size : Int

/-- The `VectorisedView` of values that a vectorised view of slices holds in memory `m`. -/
def SliceVectorisedView.values (vv : SliceVectorisedView) (m : Mem) : VectorisedView :=
  { views := vv.views.map (Slice.read m), size := vv.size }

/-- Modelled from the spec: `View.TrimFront(count)` (absent from src/) on a slice: the
view loses its first `count` bytes. -/
def Slice.TrimFront (v : Slice) (count : Nat) : Slice :=
  v.after count

/-- Modelled from the spec: `VectorisedView.removeFirst()` (absent from src/) on slices:
the first view is dropped and its length leaves `size`. -/
def SliceVectorisedView.removeFirst (vv : SliceVectorisedView) : SliceVectorisedView :=
  match vv.views with
  | [] => vv
  | v :: rest => { views := rest, size := wrapInt (vv.size - v.len) }

/-- What a call of `Read` leaves behind on shared storage: the memory, the receiver, and
the two results. -/
structure ReadMemResult where
  mem : Mem
  vv : SliceVectorisedView
  copied : Nat
  err : Option error

/-- Tail of `Read` after the loop: `if copied == 0 { return 0, io.EOF }; return copied, nil`. -/
def ReadMemExit (m : Mem) (vv : SliceVectorisedView) (copied : Nat) : ReadMemResult :=
  if copied = 0 then { mem := m, vv := vv, copied := 0, err := some error.EOF }
  else { mem := m, vv := vv, copied := copied, err := none }

/-- The loop `for count > 0 && len(vv.views) > 0` of `Read` on shared storage, by
recursion on `vv.views`: every `copy` stores into the memory that the views are read
from. -/
def ReadMemLoop : List Slice → Int → Mem → Slice → Nat → Nat → ReadMemResult
  | [], size, m, _, _, copied => ReadMemExit m { views := [], size := size } copied
  | v :: rest, size, m, b, count, copied =>
    if count > 0 then
      if count < v.len then
        -- vv.size -= count; copy(b[copied:], vv.views[0][:count])
        -- vv.views[0].TrimFront(count); copied += count; return copied, nil
        { mem := copyMem m (b.after copied) (v.first count),
          vv := { views := Slice.TrimFront v count :: rest, size := wrapInt (size - count) },
          copied := copied + count,
          err := none }
      else
        -- count -= len(vv.views[0]); copy(b[copied:], vv.views[0])
        -- copied += len(vv.views[0]); vv.removeFirst()
        ReadMemLoop rest
          (SliceVectorisedView.removeFirst { views := v :: rest, size := size }).size
          (copyMem m (b.after copied) v) b (count - v.len) (copied + v.len)
    else ReadMemExit m { views := v :: rest, size := size } copied

/-- Source: `func (vv *VectorisedView) Read(b []byte) (copied int, err error)` on shared
storage, with `count := len(b)` and `copied` starting at 0. -/
def SliceVectorisedView.Read (vv : SliceVectorisedView) (m : Mem) (b : Slice) :
    ReadMemResult :=
  ReadMemLoop vv.views vv.size m b b.len 0

/-- Reading to the end on shared storage: `Read` is called on the same destination `b`
until it returns `io.EOF`, and the bytes `b[0:copied]` of every call are concatenated.
At most `fuel` calls are made; `none` when `io.EOF` has not been returned by then. -/
def readAllMem : Nat → SliceVectorisedView → Mem → Slice → Option (List Byte)
  | 0, _, _, _ => none
  | fuel + 1, vv, m, b =>
    if (vv.Read m b).err = some error.EOF then some []
    else
      (readAllMem fuel (vv.Read m b).vv (vv.Read m b).mem b).map
        (fun rest => (b.read (vv.Read m b).mem).take (vv.Read m b).copied ++ rest)

/-! ## Theorems -/

theorem wrapInt_of_isInt {x : Int} (h : IsInt x) : wrapInt x = x := by
  unfold IsInt at h
  unfold wrapInt
  omega

theorem wrapInt_isInt (x : Int) : IsInt (wrapInt x) := by
  unfold IsInt wrapInt
  omega

theorem wrapInt_sub_wrapInt (x y : Int) : wrapInt (wrapInt x - y) = wrapInt (x - y) := by
  unfold wrapInt
  omega

/-- C1: for every packet whose cursors are Go ints, `headerOffset()` is the Go value of
`reserved - pushed`; with `0 ≤ pushed` and `0 ≤ reserved` (an outgoing packet onto which
`pushed` header bytes were pushed) it is exactly `reserved - pushed`. -/
theorem headerOffset_eq_reserved_sub_pushed (pk : PacketBuffer) :
    pk.headerOffset = wrapInt (pk.reserved - pk.pushed) ∧
    (pk.IntFields → 0 ≤ pk.reserved → 0 ≤ pk.pushed →
      pk.headerOffset = pk.reserved - pk.pushed) := by
  refine ⟨rfl, ?_⟩
  intro hI hr hp
  obtain ⟨h1, h2, _⟩ := hI
  unfold IsInt at h1 h2
  unfold PacketBuffer.headerOffset wrapInt
  omega

theorem headerOffset_eq_reserved_sub_pushed_witness :
    (PacketBuffer.mk ⟨[], 0⟩ 54 20 0).IntFields ∧
    (PacketBuffer.mk ⟨[], 0⟩ 54 20 0).headerOffset = 34 :=
  ⟨by decide,
   (headerOffset_eq_reserved_sub_pushed (PacketBuffer.mk ⟨[], 0⟩ 54 20 0)).2
     (by decide) (by decide) (by decide)⟩

/-- C2 (refuted as stated): on an incoming packet (`pushed = 0`, `reserved = 0`) that
has consumed 20 header bytes, `headerOffset()` is 0, not `reserved + consumed = 20`. -/
theorem headerOffset_ne_reserved_add_consumed :
    (PacketBuffer.mk ⟨[], 0⟩ 0 0 20).IntFields ∧
    (PacketBuffer.mk ⟨[], 0⟩ 0 0 20).pushed = 0 ∧
    (PacketBuffer.mk ⟨[], 0⟩ 0 0 20).headerOffset = 0 ∧
    (PacketBuffer.mk ⟨[], 0⟩ 0 0 20).headerOffset ≠
      (PacketBuffer.mk ⟨[], 0⟩ 0 0 20).reserved + (PacketBuffer.mk ⟨[], 0⟩ 0 0 20).consumed := by
  decide

/-- C2 (amended): on an incoming packet (`pushed = 0`) `headerOffset()` equals
`reserved`, whatever the value of `consumed`; the consumed bytes do not enter it. -/
theorem headerOffset_incoming (pk : PacketBuffer)
    (hr : IsInt pk.reserved) (hp : pk.pushed = 0) :
    pk.headerOffset = pk.reserved ∧
    ∀ c : Int, (PacketBuffer.mk pk.buf pk.reserved pk.pushed c).headerOffset = pk.reserved := by
  have h : pk.headerOffset = pk.reserved := by
    unfold PacketBuffer.headerOffset
    rw [hp, sub_zero]
    exact wrapInt_of_isInt hr
  exact ⟨h, fun _ => h⟩

theorem headerOffset_incoming_witness :
    IsInt (PacketBuffer.mk ⟨[], 0⟩ 0 0 20).reserved ∧
    (PacketBuffer.mk ⟨[], 0⟩ 0 0 20).headerOffset = 0 :=
  ⟨by decide, (headerOffset_incoming (PacketBuffer.mk ⟨[], 0⟩ 0 0 20) (by decide) rfl).1⟩

/-! ### `Views` -/

theorem SubApplyLoop_snoc (bs : List buffer) (offset length : Int)
    (acc : List (List Byte)) :
    SubApplyLoop (fun (views : List (List Byte)) v => views ++ [v]) bs offset length acc =
      acc ++ SubApplyLoop (fun (views : List (List Byte)) v => views ++ [v])
        bs offset length [] := by
  induction bs generalizing offset length acc with
  | nil => simp [SubApplyLoop]
  | cons b rest ih =>
    unfold SubApplyLoop
    by_cases hl : length > 0
    · simp only [hl, if_true]
      by_cases ho : offset ≥ (b.ReadSlice.length : Int)
      · simp only [ho, if_true]
        exact ih _ _ _
      · simp only [ho, if_false]
        rw [ih _ _ ([] ++ _), ih _ _ (acc ++ _)]
        simp
    · simp [hl]

/-- With a non-negative offset and a length that reaches the end of the chunks, the
spans collected by `SubApply` concatenate to the bytes from `offset` on. -/
theorem SubApplyLoop_flatten (bs : List buffer) (offset length : Int)
    (ho : 0 ≤ offset)
    (hl : ((bs.map buffer.ReadSlice).flatten.length : Int) - offset ≤ length) :
    (SubApplyLoop (fun (views : List (List Byte)) v => views ++ [v])
        bs offset length []).flatten =
      ((bs.map buffer.ReadSlice).flatten).drop offset.toNat := by
  induction bs generalizing offset length with
  | nil => simp [SubApplyLoop]
  | cons b rest ih =>
    simp only [List.map_cons, List.flatten_cons, List.length_append, Nat.cast_add] at hl
    unfold SubApplyLoop
    by_cases hlen : length > 0
    · simp only [hlen, if_true]
      by_cases hoff : offset ≥ (b.ReadSlice.length : Int)
      · simp only [hoff, if_true]
        rw [ih _ _ (by omega) (by omega)]
        simp only [List.map_cons, List.flatten_cons]
        rw [List.drop_append_eq_append_drop]
        have h1 : b.ReadSlice.length ≤ offset.toNat := by omega
        rw [List.drop_eq_nil_of_le h1]
        have h2 : (offset - (b.ReadSlice.length : Int)).toNat
            = offset.toNat - b.ReadSlice.length := by omega
        rw [h2]
        simp
      · simp only [hoff, if_false]
        rw [SubApplyLoop_snoc]
        have hd : (if offset > 0 then b.ReadSlice.drop offset.toNat else b.ReadSlice)
            = b.ReadSlice.drop offset.toNat := by
          by_cases h0 : offset > 0
          · simp [h0]
          · have : offset = 0 := by omega
            simp [this]
        have ho1 : (if offset > 0 then (0 : Int) else offset) = 0 := by
          by_cases h0 : offset > 0
          · simp [h0]
          · have : offset = 0 := by omega
            simp [this]
        rw [hd, ho1]
        have hlen1 : ((b.ReadSlice.drop offset.toNat).length : Int)
            = (b.ReadSlice.length : Int) - offset := by
          rw [List.length_drop]; omega
        have hnot : ¬ (length < ((b.ReadSlice.drop offset.toNat).length : Int)) := by
          rw [hlen1]; omega
        simp only [hnot, if_false]
        simp only [List.nil_append, List.flatten_append, List.flatten_cons, List.flatten_nil,
          List.append_nil, List.map_cons]
        rw [ih _ _ (le_refl 0) (by rw [hlen1]; omega)]
        simp only [Int.toNat_zero, List.drop_zero]
        rw [List.drop_append_eq_append_drop]
        have h3 : offset.toNat - b.ReadSlice.length = 0 := by omega
        rw [h3]
        simp
    · simp only [hlen, if_false]
      have h1 : (b.ReadSlice ++ (rest.map buffer.ReadSlice).flatten).length ≤ offset.toNat := by
        simp only [List.length_append]; omega
      simp only [List.map_cons, List.flatten_cons]
      rw [List.drop_eq_nil_of_le h1]
      simp

/-- The spans of `Views()` concatenate to the bytes of the buffer from the header
offset `reserved - pushed` to its end. -/
theorem Views_flatten_eq (pk : PacketBuffer) (hwf : pk.buf.WF)
    (hp : 0 ≤ pk.pushed) (hpr : pk.pushed ≤ pk.reserved)
    (hrs : pk.reserved ≤ pk.buf.Size) :
    pk.Views.flatten = pk.buf.bytes.drop (pk.reserved - pk.pushed).toNat := by
  obtain ⟨hsz, hsi⟩ := hwf
  have hoff : pk.headerOffset = pk.reserved - pk.pushed := by
    unfold PacketBuffer.headerOffset
    apply wrapInt_of_isInt
    unfold Buffer.Size at hrs
    unfold IsInt at hsi ⊢
    omega
  have hlen : wrapInt (pk.buf.Size - (pk.reserved - pk.pushed))
      = pk.buf.Size - (pk.reserved - pk.pushed) := by
    apply wrapInt_of_isInt
    unfold Buffer.Size at hrs ⊢
    unfold IsInt at hsi ⊢
    omega
  have hb : ((pk.buf.data.map buffer.ReadSlice).flatten.length : Int) = pk.buf.Size := by
    unfold Buffer.Size
    rw [hsz]
    rfl
  show (SubApplyLoop (fun (views : List (List Byte)) v => views ++ [v]) pk.buf.data
      pk.headerOffset (wrapInt (pk.buf.Size - pk.headerOffset)) []).flatten = _
  rw [hoff, hlen, SubApplyLoop_flatten _ _ _ (by omega) (by omega)]
  rfl

/-- C3: a packet whose buffer is exactly the `R` reserved bytes (empty Data) and onto
which headers of sizes `h1..hn` with `Σhi ≤ R` were pushed (`pushed = Σhi`) yields
through `Views()` spans holding exactly `Σhi` bytes in total. -/
theorem Views_total_eq_pushed (pk : PacketBuffer) (hs : List Nat) (hwf : pk.buf.WF)
    (hR : pk.buf.Size = pk.reserved) (hpush : pk.pushed = ((hs.sum : Nat) : Int))
    (hle : ((hs.sum : Nat) : Int) ≤ pk.reserved) :
    (pk.Views.map List.length).sum = hs.sum := by
  have h := Views_flatten_eq pk hwf (by omega) (by omega) (by omega)
  have hlen := congrArg List.length h
  rw [List.length_flatten, List.length_drop] at hlen
  rw [hlen]
  have hsz : pk.buf.size = (pk.buf.bytes.length : Int) := hwf.1
  unfold Buffer.Size at hR
  omega

theorem Views_total_eq_pushed_witness :
    (PacketBuffer.mk ⟨[⟨[0, 0, 7, 8, 9], 0, 5⟩], 5⟩ 5 3 0).buf.WF ∧
    ((PacketBuffer.mk ⟨[⟨[0, 0, 7, 8, 9], 0, 5⟩], 5⟩ 5 3 0).Views.map List.length).sum
      = [1, 2].sum :=
  ⟨by decide,
   Views_total_eq_pushed (PacketBuffer.mk ⟨[⟨[0, 0, 7, 8, 9], 0, 5⟩], 5⟩ 5 3 0) [1, 2]
     (by decide) (by decide) (by decide) (by decide)⟩

/-- C4 (refuted as stated): an incoming packet (`reserved = 0`, `pushed = 0`) of four
bytes that has consumed two of them still gets all four bytes from `Views()`, the two
consumed ones included; the total is 4, not `Size − reserved − consumed = 2`. -/
theorem Views_includes_consumed :
    (PacketBuffer.mk ⟨[⟨[1, 2, 3, 4], 0, 4⟩], 4⟩ 0 0 2).buf.WF ∧
    (PacketBuffer.mk ⟨[⟨[1, 2, 3, 4], 0, 4⟩], 4⟩ 0 0 2).Views = [[1, 2, 3, 4]] ∧
    (((PacketBuffer.mk ⟨[⟨[1, 2, 3, 4], 0, 4⟩], 4⟩ 0 0 2).Views.map List.length).sum : Int) ≠
      (PacketBuffer.mk ⟨[⟨[1, 2, 3, 4], 0, 4⟩], 4⟩ 0 0 2).buf.Size
        - (PacketBuffer.mk ⟨[⟨[1, 2, 3, 4], 0, 4⟩], 4⟩ 0 0 2).reserved
        - (PacketBuffer.mk ⟨[⟨[1, 2, 3, 4], 0, 4⟩], 4⟩ 0 0 2).consumed := by
  decide

/-- C4 (amended): for an incoming packet (`pushed = 0`, `0 ≤ reserved ≤ Size`) that has
consumed any number `c` of header bytes, the spans of `Views()` are the bytes of the
buffer from offset `reserved` on, consumed bytes included, `Size − reserved` in total. -/
theorem Views_incoming_total (pk : PacketBuffer) (hwf : pk.buf.WF)
    (hp : pk.pushed = 0) (hr : 0 ≤ pk.reserved) (hrs : pk.reserved ≤ pk.buf.Size) :
    pk.Views.flatten = pk.buf.bytes.drop pk.reserved.toNat ∧
    ((pk.Views.map List.length).sum : Int) = pk.buf.Size - pk.reserved := by
  have hsz : pk.buf.size = (pk.buf.bytes.length : Int) := hwf.1
  have h := Views_flatten_eq pk hwf (by omega) (by omega) hrs
  rw [hp, sub_zero] at h
  refine ⟨h, ?_⟩
  rw [← List.length_flatten, h, List.length_drop]
  unfold Buffer.Size at hrs ⊢
  omega

theorem Views_incoming_total_witness :
    (PacketBuffer.mk ⟨[⟨[1, 2, 3, 4], 0, 4⟩], 4⟩ 0 0 2).buf.WF ∧
    (((PacketBuffer.mk ⟨[⟨[1, 2, 3, 4], 0, 4⟩], 4⟩ 0 0 2).Views.map List.length).sum : Int)
      = (PacketBuffer.mk ⟨[⟨[1, 2, 3, 4], 0, 4⟩], 4⟩ 0 0 2).buf.Size
        - (PacketBuffer.mk ⟨[⟨[1, 2, 3, 4], 0, 4⟩], 4⟩ 0 0 2).reserved :=
  ⟨by decide,
   (Views_incoming_total (PacketBuffer.mk ⟨[⟨[1, 2, 3, 4], 0, 4⟩], 4⟩ 0 0 2)
     (by decide) (by decide) (by decide) (by decide)).2⟩

/-- C5: for every packet with `0 ≤ pushed ≤ reserved ≤ buf.Size()` the in-order
concatenation of the spans of `Views()` is the buffer from offset `reserved − pushed`
to its end, its length is `buf.Size() − (reserved − pushed)`, and the spans are the
same whatever the value of `consumed`. -/
theorem Views_whole_packet (pk : PacketBuffer) (hwf : pk.buf.WF)
    (hp : 0 ≤ pk.pushed) (hpr : pk.pushed ≤ pk.reserved) (hrs : pk.reserved ≤ pk.buf.Size) :
    pk.Views.flatten = pk.buf.bytes.drop (pk.reserved - pk.pushed).toNat ∧
    (pk.Views.flatten.length : Int) = pk.buf.Size - (pk.reserved - pk.pushed) ∧
    ∀ c : Int, (PacketBuffer.mk pk.buf pk.reserved pk.pushed c).Views = pk.Views := by
  have h := Views_flatten_eq pk hwf hp hpr hrs
  refine ⟨h, ?_, fun _ => rfl⟩
  have hsz : pk.buf.size = (pk.buf.bytes.length : Int) := hwf.1
  rw [h, List.length_drop]
  unfold Buffer.Size at hrs ⊢
  omega

theorem Views_whole_packet_witness :
    (PacketBuffer.mk ⟨[⟨[0, 5, 6], 0, 3⟩, ⟨[9, 7, 8, 9], 1, 3⟩], 5⟩ 3 2 1).buf.WF ∧
    (PacketBuffer.mk ⟨[⟨[0, 5, 6], 0, 3⟩, ⟨[9, 7, 8, 9], 1, 3⟩], 5⟩ 3 2 1).Views.flatten
      = [5, 6, 7, 8] :=
  ⟨by decide,
   (Views_whole_packet (PacketBuffer.mk ⟨[⟨[0, 5, 6], 0, 3⟩, ⟨[9, 7, 8, 9], 1, 3⟩], 5⟩ 3 2 1)
     (by decide) (by decide) (by decide) (by decide)).1⟩

/-! ### `VectorisedView.Read` -/

/-- The views left by `removeFirst` are the tail on which the loop of `Read` goes on. -/
theorem removeFirst_cons (v : View) (rest : List View) (size : Int) :
    VectorisedView.removeFirst { views := v :: rest, size := size }
      = { views := rest, size := wrapInt (size - v.length) } := rfl

theorem copy_of_length_le (dst src : List Byte) (h : src.length ≤ dst.length) :
    copy dst src = src ++ dst.drop src.length := by
  unfold copy
  rw [List.take_of_length_le h]

/-- Everything a run of the loop of `Read` does, for a destination `pre ++ post` of
which `pre` was already written: `n = min(len(post), total)` bytes are copied. -/
theorem ReadLoop_spec (views : List View) :
    ∀ (size : Int) (pre post : List Byte),
      (ReadLoop views size (pre ++ post) post.length pre.length).b
          = pre ++ views.flatten.take (min post.length views.flatten.length)
              ++ post.drop (min post.length views.flatten.length) ∧
      (ReadLoop views size (pre ++ post) post.length pre.length).copied
          = (if pre.length + min post.length views.flatten.length = 0 then 0
             else pre.length + min post.length views.flatten.length) ∧
      (ReadLoop views size (pre ++ post) post.length pre.length).vv.views.flatten
          = views.flatten.drop (min post.length views.flatten.length) ∧
      (IsInt size → (ReadLoop views size (pre ++ post) post.length pre.length).vv.size
          = wrapInt (size - (min post.length views.flatten.length : Nat))) ∧
      (ReadLoop views size (pre ++ post) post.length pre.length).err
          = (if pre.length + min post.length views.flatten.length = 0
             then some error.EOF else none) := by
  induction views with
  | nil =>
    intro size pre post
    simp only [ReadLoop, ReadExit, List.flatten_nil, List.length_nil, Nat.min_zero,
      Nat.add_zero, List.take_nil, List.drop_zero, List.append_nil, List.drop_nil]
    have hw : IsInt size → size = wrapInt size := fun hs => (wrapInt_of_isInt hs).symm
    by_cases hp : pre.length = 0 <;> simpa [hp] using hw
  | cons v rest ih =>
    intro size pre post
    unfold ReadLoop
    by_cases hc : post.length > 0
    · simp only [hc, if_true]
      by_cases hlt : post.length < v.length
      · simp only [hlt, if_true]
        have hmin : min post.length (v :: rest).flatten.length = post.length := by
          simp only [List.flatten_cons, List.length_append]; omega
        rw [hmin]
        have hne : ¬ (pre.length + post.length = 0) := by omega
        simp only [hne, if_false]
        refine ⟨?_, trivial, ?_, fun _ => trivial, trivial⟩
        · rw [List.take_left, List.drop_left, copy_of_length_le _ _ (by
            rw [List.length_take]; omega)]
          simp only [List.flatten_cons]
          rw [List.take_append_of_le_length (by omega)]
          simp [List.length_take, Nat.min_eq_left (Nat.le_of_lt hlt)]
        · simp only [View.TrimFront, List.flatten_cons]
          rw [List.drop_append_of_le_length (by omega)]
      · simp only [hlt, if_false]
        have hle : v.length ≤ post.length := by omega
        have hb : (pre ++ post).take pre.length ++ copy ((pre ++ post).drop pre.length) v
            = (pre ++ v) ++ post.drop v.length := by
          rw [List.take_left, List.drop_left, copy_of_length_le _ _ hle, List.append_assoc]
        have hcnt : post.length - v.length = (post.drop v.length).length := by
          rw [List.length_drop]
        have hcop : pre.length + v.length = (pre ++ v).length := by
          rw [List.length_append]
        rw [hb, hcnt, hcop, removeFirst_cons]
        obtain ⟨h1, h2, h3, h4, h5⟩ :=
          ih (wrapInt (size - v.length)) (pre ++ v) (post.drop v.length)
        have h4 := h4 (wrapInt_isInt _)
        have hmin : min post.length (v :: rest).flatten.length
            = v.length + min (post.drop v.length).length rest.flatten.length := by
          simp only [List.flatten_cons, List.length_append, List.length_drop]; omega
        rw [h1, h2, h3, h4, h5, hmin]
        simp only [List.flatten_cons, List.length_append, List.drop_drop]
        refine ⟨?_, ?_, ?_, ?_, ?_⟩
        · rw [List.take_append]
          simp only [List.append_assoc]
        · simp only [Nat.add_assoc]
        · rw [List.drop_append]
        · intro _
          rw [wrapInt_sub_wrapInt]
          congr 1
          push_cast
          ring
        · simp only [Nat.add_assoc]
    · simp only [hc, if_false]
      have hp0 : post.length = 0 := by omega
      have hpn : post = [] := List.length_eq_zero.mp hp0
      subst hpn
      simp only [ReadExit, List.length_nil, Nat.zero_min, Nat.add_zero, List.take_zero,
        List.drop_zero, List.append_nil]
      have hw : IsInt size → size = wrapInt size := fun hs => (wrapInt_of_isInt hs).symm
      by_cases hp : pre.length = 0 <;> simpa [hp] using hw

/-- The loop lemma at the entry of `Read`: nothing written yet, `count = len(b)`. -/
theorem Read_spec (vv : VectorisedView) (b : List Byte) :
    (vv.Read b).b = vv.bytes.take (min b.length vv.bytes.length)
        ++ b.drop (min b.length vv.bytes.length) ∧
    (vv.Read b).copied = min b.length vv.bytes.length ∧
    (vv.Read b).vv.bytes = vv.bytes.drop (min b.length vv.bytes.length) ∧
    (IsInt vv.size →
      (vv.Read b).vv.size = wrapInt (vv.size - (min b.length vv.bytes.length : Nat))) ∧
    (vv.Read b).err
      = (if min b.length vv.bytes.length = 0 then some error.EOF else none) := by
  have h := ReadLoop_spec vv.views vv.size [] b
  simp only [List.nil_append, List.length_nil, Nat.zero_add] at h
  obtain ⟨h1, h2, h3, h4, h5⟩ := h
  unfold VectorisedView.bytes
  refine ⟨h1, ?_, h3, h4, h5⟩
  show (ReadLoop vv.views vv.size b b.length 0).copied = _
  rw [h2]
  split <;> omega

/-- On the values held: `Read` returns `n = min(len(b), total length of the views)`,
leaves in `b[0:n]` the first `n` bytes of the in-order concatenation of the views and
leaves `b[n:]` as it was. -/
theorem Read_values_copies_min (vv : VectorisedView) (b : List Byte) :
    (vv.Read b).copied = min b.length (vv.views.map List.length).sum ∧
    (vv.Read b).b.take (vv.Read b).copied = vv.views.flatten.take (vv.Read b).copied ∧
    (vv.Read b).b.drop (vv.Read b).copied = b.drop (vv.Read b).copied ∧
    (vv.Read b).b.length = b.length := by
  obtain ⟨h1, h2, -, -, -⟩ := Read_spec vv b
  have hlen : (vv.views.map List.length).sum = vv.bytes.length := by
    unfold VectorisedView.bytes; rw [List.length_flatten]
  have htl : (vv.bytes.take (min b.length vv.bytes.length)).length
      = min b.length vv.bytes.length := by
    rw [List.length_take]; omega
  rw [hlen, h1, h2]
  refine ⟨rfl, ?_, ?_, ?_⟩
  · rw [List.take_left' htl]
    rfl
  · rw [List.drop_left' htl]
  · rw [List.length_append, htl, List.length_drop]
    omega

/-- C7: `Read` returns `(0, io.EOF)` when the vectorised view has no views left (and
whenever its views hold no byte), returns a nil error whenever it copies at least one
byte, and returns no error other than `io.EOF`. -/
theorem Read_error (vv : VectorisedView) (b : List Byte) :
    (vv.views = [] → (vv.Read b).copied = 0 ∧ (vv.Read b).err = some error.EOF) ∧
    (vv.views.flatten.length = 0 →
      (vv.Read b).copied = 0 ∧ (vv.Read b).err = some error.EOF) ∧
    (0 < (vv.Read b).copied → (vv.Read b).err = none) ∧
    ((vv.Read b).err = none ∨ (vv.Read b).err = some error.EOF) := by
  obtain ⟨-, h2, -, -, h5⟩ := Read_spec vv b
  have hz : vv.views.flatten.length = 0 →
      (vv.Read b).copied = 0 ∧ (vv.Read b).err = some error.EOF := by
    intro h0
    have hb : vv.bytes.length = 0 := h0
    rw [h2, h5, hb]
    simp
  refine ⟨?_, hz, ?_, ?_⟩
  · intro hv
    apply hz
    rw [hv]
    rfl
  · intro hpos
    rw [h2] at hpos
    rw [h5, if_neg (by omega)]
  · rw [h5]
    split
    · exact Or.inr rfl
    · exact Or.inl rfl

theorem Read_error_witness :
    ((NewVectorisedView 0 []).Read [9, 9]).copied = 0 ∧
    ((NewVectorisedView 0 []).Read [9, 9]).err = some error.EOF ∧
    0 < ((NewVectorisedView 3 [[1], [2, 3]]).Read [9, 9]).copied ∧
    ((NewVectorisedView 3 [[1], [2, 3]]).Read [9, 9]).err = none :=
  ⟨((Read_error (NewVectorisedView 0 []) [9, 9]).1 rfl).1,
   ((Read_error (NewVectorisedView 0 []) [9, 9]).1 rfl).2,
   by decide,
   (Read_error (NewVectorisedView 3 [[1], [2, 3]]) [9, 9]).2.2.1 (by decide)⟩

/-- C8: a call of `Read` that copies `n` bytes takes exactly `n` off the `size` field
(in Go `int` arithmetic, and as integers whenever `size − n` is a Go `int`); hence if
`size` was the sum of the lengths of the views before the call, it still is afterwards. -/
theorem Read_size (vv : VectorisedView) (b : List Byte) (hs : IsInt vv.size) :
    (vv.Read b).vv.size = wrapInt (vv.size - (vv.Read b).copied) ∧
    (IsInt (vv.size - (vv.Read b).copied) →
      (vv.Read b).vv.size = vv.size - (vv.Read b).copied) ∧
    (vv.size = ((vv.views.map List.length).sum : Nat) →
      (vv.Read b).vv.size = (((vv.Read b).vv.views.map List.length).sum : Nat)) := by
  obtain ⟨-, h2, h3, h4, -⟩ := Read_spec vv b
  have h4 := h4 hs
  rw [← h2] at h4
  refine ⟨h4, fun hi => by rw [h4, wrapInt_of_isInt hi], ?_⟩
  intro hsum
  have hlen : (vv.views.map List.length).sum = vv.bytes.length := by
    unfold VectorisedView.bytes; rw [List.length_flatten]
  have hlen2 : ((vv.Read b).vv.views.map List.length).sum = (vv.Read b).vv.bytes.length := by
    unfold VectorisedView.bytes; rw [List.length_flatten]
  rw [hlen] at hsum
  rw [hlen2, h3, List.length_drop, ← h2, h4]
  have hle : (vv.Read b).copied ≤ vv.bytes.length := by rw [h2]; omega
  rw [wrapInt_of_isInt]
  · omega
  · unfold IsInt at hs ⊢
    omega

theorem Read_size_witness :
    IsInt (NewVectorisedView 3 [[1], [2, 3]]).size ∧
    ((NewVectorisedView 3 [[1], [2, 3]]).Read [9, 9]).vv.size = 1 ∧
    ((NewVectorisedView 3 [[1], [2, 3]]).Read [9, 9]).vv.views = [[3]] :=
  ⟨by decide,
   ((Read_size (NewVectorisedView 3 [[1], [2, 3]]) [9, 9] (by decide)).2.1 (by decide)).trans
     (by decide),
   by decide⟩

/-! ### The wait queue -/

theorem EventRegister_list (q : Queue) (h : Heap) (e : Ptr) (m : EventMask) :
    (q.EventRegister h e m).1.list
      = { head := if q.list.tail = none then some e else q.list.head, tail := some e } := by
  unfold Queue.EventRegister waiterList.PushBack
  cases q.list.tail <;> simp

theorem EventRegister_heap_self (q : Queue) (h : Heap) (e : Ptr) (m : EventMask) :
    (q.EventRegister h e m).2 e
      = { mask := m, next := if q.list.tail = some e then some e else none,
          prev := q.list.tail } := by
  unfold Queue.EventRegister waiterList.PushBack
  cases ht : q.list.tail with
  | none => simp [Heap.set, SetNext, SetPrev, linkerFor]
  | some t =>
    by_cases hte : e = t
    · simp [Heap.set, SetNext, SetPrev, linkerFor, hte]
    · have hte2 : ¬ t = e := fun hh => hte hh.symm
      simp [Heap.set, SetNext, SetPrev, linkerFor, hte, hte2]

theorem EventRegister_heap_other (q : Queue) (h : Heap) (e : Ptr) (m : EventMask)
    (x : Ptr) (hx : x ≠ e) :
    (q.EventRegister h e m).2 x
      = { h x with next := if q.list.tail = some x then some e else (h x).next } := by
  unfold Queue.EventRegister waiterList.PushBack
  cases ht : q.list.tail with
  | none => simp [Heap.set, SetNext, SetPrev, linkerFor, hx]
  | some t =>
    by_cases hxt : x = t
    · subst hxt
      simp [Heap.set, SetNext, SetPrev, linkerFor, hx]
    · have hxt2 : ¬ t = x := fun hh => hxt hh.symm
      simp [Heap.set, SetNext, SetPrev, linkerFor, hx, hxt, hxt2]

theorem lastOr_mem (a : Ptr) (rest : List Ptr) (p : Option Ptr) :
    ∃ x, x ∈ a :: rest ∧ lastOr p (a :: rest) = some x := by
  induction rest generalizing a p with
  | nil => exact ⟨a, List.mem_singleton.mpr rfl, rfl⟩
  | cons b r ih =>
    obtain ⟨x, hx, hl⟩ := ih b (some a)
    exact ⟨x, List.mem_cons_of_mem _ hx, hl⟩

theorem lastOr_none_eq (es : List Ptr) : lastOr none es = es.getLast? := by
  have key : ∀ (l : List Ptr) (a : Ptr), lastOr (some a) l = (a :: l).getLast? := by
    intro l
    induction l with
    | nil => intro a; rfl
    | cons b r ih =>
      intro a
      rw [List.getLast?_cons_cons]
      exact ih b
  cases es with
  | nil => rfl
  | cons a l => exact key l a

theorem lastOr_append (p : Option Ptr) (xs ys : List Ptr) :
    lastOr p (xs ++ ys) = lastOr (lastOr p xs) ys := by
  induction xs generalizing p with
  | nil => rfl
  | cons a r ih => exact ih (some a)

theorem Linked_frame (h h2 : Heap) (p : Option Ptr) (es : List Ptr)
    (hf : ∀ x ∈ es, (h2 x).next = (h x).next ∧ (h2 x).prev = (h x).prev)
    (hl : Linked h p es) : Linked h2 p es := by
  induction es generalizing p with
  | nil => trivial
  | cons a rest ih =>
    obtain ⟨h1, h3, h4⟩ := hl
    obtain ⟨hn, hp⟩ := hf a (List.mem_cons_self _ _)
    refine ⟨by rw [hp, h1], by rw [hn, h3], ?_⟩
    exact ih (some a) (fun x hx => hf x (List.mem_cons_of_mem _ hx)) h4

/-- Chaining a new entry `e` behind the last one extends the chain by `e`. -/
theorem Linked_append (h h2 : Heap) (e : Ptr) (es : List Ptr) (p : Option Ptr)
    (hl : Linked h p es) (hnd : (e :: es).Nodup)
    (hprev : ∀ x ∈ es, (h2 x).prev = (h x).prev)
    (hnext : ∀ x ∈ es, (h2 x).next = if lastOr p es = some x then some e else (h x).next)
    (hep : (h2 e).prev = lastOr p es) (hen : (h2 e).next = none) :
    Linked h2 p (es ++ [e]) := by
  induction es generalizing p with
  | nil => exact ⟨hep, hen, trivial⟩
  | cons a rest ih =>
    obtain ⟨h1, h3, h4⟩ := hl
    have hnd2 : e ∉ a :: rest ∧ (a ∉ rest ∧ rest.Nodup) := by
      simpa [List.nodup_cons] using hnd
    obtain ⟨hea, har, hrn⟩ := hnd2
    have her : e ∉ rest := fun hh => hea (List.mem_cons_of_mem _ hh)
    refine ⟨?_, ?_, ?_⟩
    · rw [hprev a (List.mem_cons_self _ _), h1]
    · rw [hnext a (List.mem_cons_self _ _)]
      cases rest with
      | nil => simp [lastOr]
      | cons b r =>
        obtain ⟨x, hx, hlx⟩ := lastOr_mem b r (some a)
        have hne : ¬ (lastOr p (a :: b :: r) = some a) := by
          show ¬ (lastOr (some a) (b :: r) = some a)
          rw [hlx]
          intro hh
          have : x = a := Option.some.inj hh
          exact har (this ▸ hx)
        rw [if_neg hne, h3]
        rfl
    · exact ih (some a) h4 (List.nodup_cons.mpr ⟨her, hrn⟩)
        (fun x hx => hprev x (List.mem_cons_of_mem _ hx))
        (fun x hx => hnext x (List.mem_cons_of_mem _ hx)) hep

/-- Registering an entry that is not linked keeps the queue well formed and puts the
entry last. -/
theorem EventRegister_holds (q : Queue) (h : Heap) (es : List Ptr) (e : Ptr)
    (m : EventMask) (hw : q.Holds h es) (hne : e ∉ es) :
    (q.EventRegister h e m).1.Holds (q.EventRegister h e m).2 (es ++ [e]) := by
  obtain ⟨hnd, hhead, htail, hl⟩ := hw
  have hxe : ∀ x ∈ es, x ≠ e := fun x hx hh => hne (hh ▸ hx)
  have hte : q.list.tail ≠ some e := by
    rw [htail]
    intro hh
    exact hne (List.mem_of_mem_getLast? hh)
  refine ⟨?_, ?_, ?_, ?_⟩
  · exact List.nodup_append.mpr ⟨hnd, List.nodup_singleton e, by
      intro x hx hx2
      exact hne (List.mem_singleton.mp hx2 ▸ hx)⟩
  · rw [EventRegister_list]
    cases es with
    | nil => simp [htail]
    | cons a r =>
      have : q.list.tail ≠ none := by
        rw [htail]
        simp
      simp [this, hhead]
  · rw [EventRegister_list]
    simp
  · apply Linked_append h _ e es none hl (List.nodup_cons.mpr ⟨hne, hnd⟩)
    · intro x hx
      rw [EventRegister_heap_other _ _ _ _ x (hxe x hx)]
    · intro x hx
      rw [EventRegister_heap_other _ _ _ _ x (hxe x hx), lastOr_none_eq, htail]
    · rw [EventRegister_heap_self, lastOr_none_eq, htail]
    · rw [EventRegister_heap_self]
      simp [hte]

/-- C9: on a well-formed wait queue with entries `e1..en` and an entry `e` not linked in
it, `EventRegister(e, m)` leaves the well-formed queue `e1..en, e`, sets the mask of `e`
to `m` and leaves the mask of every other entry as it was. -/
theorem EventRegister_appends (q : Queue) (h : Heap) (es : List Ptr) (e : Ptr)
    (m : EventMask) (hw : q.Holds h es) (hne : e ∉ es) :
    (q.EventRegister h e m).1.Holds (q.EventRegister h e m).2 (es ++ [e]) ∧
    ((q.EventRegister h e m).2 e).mask = m ∧
    ∀ x, x ≠ e → ((q.EventRegister h e m).2 x).mask = (h x).mask := by
  refine ⟨EventRegister_holds q h es e m hw hne, ?_, ?_⟩
  · rw [EventRegister_heap_self]
  · intro x hx
    rw [EventRegister_heap_other _ _ _ _ x hx]

theorem EventRegister_appends_witness :
    (Queue.mk ⟨some 1, some 2⟩).Holds
      (Heap.set (Heap.set Heap.zero 1 ⟨4, some 2, none⟩) 2 ⟨1, none, some 1⟩) [1, 2] ∧
    ((Queue.mk ⟨some 1, some 2⟩).EventRegister
      (Heap.set (Heap.set Heap.zero 1 ⟨4, some 2, none⟩) 2 ⟨1, none, some 1⟩) 7 5).1.Holds
    ((Queue.mk ⟨some 1, some 2⟩).EventRegister
      (Heap.set (Heap.set Heap.zero 1 ⟨4, some 2, none⟩) 2 ⟨1, none, some 1⟩) 7 5).2
      ([1, 2] ++ [7]) :=
  ⟨by decide,
   (EventRegister_appends (Queue.mk ⟨some 1, some 2⟩)
      (Heap.set (Heap.set Heap.zero 1 ⟨4, some 2, none⟩) 2 ⟨1, none, some 1⟩) [1, 2] 7 5
      (by decide) (by decide)).1⟩

theorem Entry.eq_of_fields {a b : Entry} (hm : a.mask = b.mask) (hn : a.next = b.next)
    (hp : a.prev = b.prev) : a = b := by
  cases a; cases b
  simp only [Entry.mk.injEq]
  exact ⟨hm, hn, hp⟩

theorem SetNext_next (h : Heap) (a : Ptr) (v : Option Ptr) (x : Ptr) :
    (SetNext h a v x).next = if x = a then v else (h x).next := by
  unfold SetNext Heap.set
  by_cases hx : x = a <;> simp [hx]

theorem SetNext_prev (h : Heap) (a : Ptr) (v : Option Ptr) (x : Ptr) :
    (SetNext h a v x).prev = (h x).prev := by
  unfold SetNext Heap.set
  by_cases hx : x = a <;> simp [hx]

theorem SetNext_mask (h : Heap) (a : Ptr) (v : Option Ptr) (x : Ptr) :
    (SetNext h a v x).mask = (h x).mask := by
  unfold SetNext Heap.set
  by_cases hx : x = a <;> simp [hx]

theorem SetPrev_prev (h : Heap) (a : Ptr) (v : Option Ptr) (x : Ptr) :
    (SetPrev h a v x).prev = if x = a then v else (h x).prev := by
  unfold SetPrev Heap.set
  by_cases hx : x = a <;> simp [hx]

theorem SetPrev_next (h : Heap) (a : Ptr) (v : Option Ptr) (x : Ptr) :
    (SetPrev h a v x).next = (h x).next := by
  unfold SetPrev Heap.set
  by_cases hx : x = a <;> simp [hx]

theorem SetPrev_mask (h : Heap) (a : Ptr) (v : Option Ptr) (x : Ptr) :
    (SetPrev h a v x).mask = (h x).mask := by
  unfold SetPrev Heap.set
  by_cases hx : x = a <;> simp [hx]

/-- The heap left by `Remove`, without the list. -/
theorem Remove_heap (l : waiterList) (h : Heap) (e : Ptr) :
    (l.Remove h e).2
      = SetPrev (SetNext
          (match (h e).next with
            | some n =>
              SetPrev (match (h e).prev with
                | some p => SetNext h p (h e).next
                | none => h) n (h e).prev
            | none =>
              (match (h e).prev with
                | some p => SetNext h p (h e).next
                | none => h)) e none) e none := by
  unfold waiterList.Remove
  simp only [Prev, Next, linkerFor]
  cases (h e).prev <;> cases (h e).next <;> simp only [] <;> split_ifs <;> rfl

/-- The list left by `Remove`, without the heap. -/
theorem Remove_list (l : waiterList) (h : Heap) (e : Ptr) :
    (l.Remove h e).1
      = { head := if (h e).prev = none ∧ l.head = some e then (h e).next else l.head,
          tail := if (h e).next = none ∧ l.tail = some e then (h e).prev else l.tail } := by
  unfold waiterList.Remove
  simp only [Prev, Next, linkerFor]
  cases (h e).prev <;> cases (h e).next <;> simp only [] <;> split_ifs <;> simp_all

theorem EventUnregister_list (q : Queue) (h : Heap) (e : Ptr) :
    (q.EventUnregister h e).1.list
      = { head := if (h e).prev = none ∧ q.list.head = some e then (h e).next
                  else q.list.head,
          tail := if (h e).next = none ∧ q.list.tail = some e then (h e).prev
                  else q.list.tail } :=
  Remove_list q.list h e

theorem EventUnregister_heap_self (q : Queue) (h : Heap) (e : Ptr) :
    (q.EventUnregister h e).2 e = { mask := (h e).mask, next := none, prev := none } := by
  show (q.list.Remove h e).2 e = _
  rw [Remove_heap]
  apply Entry.eq_of_fields
  · rw [SetPrev_mask, SetNext_mask]
    cases (h e).prev <;> cases (h e).next <;>
      simp only [SetPrev_mask, SetNext_mask]
  · rw [SetPrev_next, SetNext_next, if_pos rfl]
  · rw [SetPrev_prev, if_pos rfl]

theorem EventUnregister_heap_other (q : Queue) (h : Heap) (e : Ptr) (x : Ptr) (hx : x ≠ e) :
    (q.EventUnregister h e).2 x
      = { h x with
          next := if (h e).prev = some x then (h e).next else (h x).next,
          prev := if (h e).next = some x then (h e).prev else (h x).prev } := by
  show (q.list.Remove h e).2 x = _
  rw [Remove_heap]
  apply Entry.eq_of_fields
  · rw [SetPrev_mask, SetNext_mask]
    cases (h e).prev <;> cases (h e).next <;>
      simp only [SetPrev_mask, SetNext_mask]
  · rw [SetPrev_next, SetNext_next, if_neg hx]
    cases (h e).prev <;> cases (h e).next <;>
      simp only [SetPrev_next, SetNext_next, Option.some.injEq, eq_comm, reduceCtorEq, if_false]
  · rw [SetPrev_prev, if_neg hx, SetNext_prev]
    cases (h e).prev <;> cases (h e).next <;>
      simp only [SetPrev_prev, SetNext_prev, Option.some.injEq, eq_comm, reduceCtorEq, if_false]

/-- In a chain through `e`, the links of `e` are its neighbours in the chain. -/
theorem Linked_links (h : Heap) (e : Ptr) (xs ys : List Ptr) (p : Option Ptr)
    (hl : Linked h p (xs ++ e :: ys)) :
    (h e).prev = lastOr p xs ∧ (h e).next = ys.head? := by
  induction xs generalizing p with
  | nil => exact ⟨hl.1, hl.2.1⟩
  | cons a r ih => exact ih (some a) hl.2.2

/-- Unlinking `e` from a chain leaves the chain of the other entries. -/
theorem Linked_remove (h h2 : Heap) (e : Ptr) (xs ys : List Ptr) (p : Option Ptr)
    (hl : Linked h p (xs ++ e :: ys)) (hnd : (xs ++ e :: ys).Nodup)
    (hnext : ∀ x, x ≠ e →
      (h2 x).next = if (h e).prev = some x then (h e).next else (h x).next)
    (hprev : ∀ x, x ≠ e →
      (h2 x).prev = if (h e).next = some x then (h e).prev else (h x).prev)
    (hp : ∀ a, p = some a → a ∉ xs ++ e :: ys) :
    Linked h2 p (xs ++ ys) := by
  induction xs generalizing p with
  | nil =>
    obtain ⟨he1, he2, hys⟩ := hl
    simp only [List.nil_append] at hnd hp ⊢
    obtain ⟨hey, hyn⟩ := List.nodup_cons.mp hnd
    cases ys with
    | nil => trivial
    | cons y r =>
      obtain ⟨hy1, hy2, hr⟩ := hys
      obtain ⟨hyr, hrn⟩ := List.nodup_cons.mp hyn
      have hye : y ≠ e := fun hh => hey (hh ▸ List.mem_cons_self _ _)
      have hpy : ∀ z, z ∈ e :: y :: r → (h e).prev ≠ some z := by
        intro z hz hh
        exact hp z (he1 ▸ hh) hz
      refine ⟨?_, ?_, ?_⟩
      · rw [hprev y hye, he2, List.head?_cons, if_pos rfl, he1]
      · rw [hnext y hye,
          if_neg (hpy y (List.mem_cons_of_mem _ (List.mem_cons_self _ _))), hy2]
      · apply Linked_frame h h2 (some y) r _ hr
        intro x hx
        have hxe : x ≠ e := fun hh =>
          hey (hh ▸ List.mem_cons_of_mem _ hx)
        have hxy : ¬ ((h e).next = some x) := by
          rw [he2, List.head?_cons]
          intro hh
          exact hyr (Option.some.inj hh ▸ hx)
        rw [hnext x hxe, hprev x hxe, if_neg hxy,
          if_neg (hpy x (List.mem_cons_of_mem _ (List.mem_cons_of_mem _ hx)))]
        exact ⟨rfl, rfl⟩
  | cons a r ih =>
    obtain ⟨ha1, ha2, hrest⟩ := hl
    simp only [List.cons_append] at hnd hp ⊢
    obtain ⟨har, hrn⟩ := List.nodup_cons.mp hnd
    obtain ⟨hprevE, hnextE⟩ := Linked_links h e r ys (some a) hrest
    have hae : a ≠ e := fun hh => har (by rw [hh]; simp)
    have hays : a ∉ ys := fun hh => har (by simp [hh])
    have harr : a ∉ r := fun hh => har (by simp [hh])
    refine ⟨?_, ?_, ?_⟩
    · have hna : ¬ ((h e).next = some a) := by
        rw [hnextE]
        intro hh
        exact hays (List.mem_of_mem_head? hh)
      rw [hprev a hae, if_neg hna, ha1]
    · rw [hnext a hae, hprevE]
      cases r with
      | nil =>
        simp only [lastOr, if_true, List.nil_append]
        exact hnextE
      | cons b t =>
        obtain ⟨x, hx, hlx⟩ := lastOr_mem b t (some a)
        have hne : ¬ (lastOr (some a) (b :: t) = some a) := by
          rw [hlx]
          intro hh
          exact harr (Option.some.inj hh ▸ hx)
        rw [if_neg hne, ha2]
        rfl
    · apply ih (some a) hrest hrn
      intro z hz
      rw [← Option.some.inj hz]
      exact har

/-- Unregistering a linked entry keeps the queue well formed and takes the entry out. -/
theorem EventUnregister_holds (q : Queue) (h : Heap) (es : List Ptr) (e : Ptr)
    (hw : q.Holds h es) (hmem : e ∈ es) :
    (q.EventUnregister h e).1.Holds (q.EventUnregister h e).2 (es.erase e) := by
  obtain ⟨hnd, hhead, htail, hl⟩ := hw
  obtain ⟨xs, ys, hes⟩ := List.append_of_mem hmem
  subst hes
  have hexs : e ∉ xs := by
    intro hh
    have := List.nodup_append.mp hnd
    exact this.2.2 hh (List.mem_cons_self _ _)
  have herase : (xs ++ e :: ys).erase e = xs ++ ys := by
    rw [List.erase_append_right _ hexs, List.erase_cons_head]
  obtain ⟨hprevE, hnextE⟩ := Linked_links h e xs ys none hl
  rw [lastOr_none_eq] at hprevE
  rw [herase]
  refine ⟨?_, ?_, ?_, ?_⟩
  · have := List.nodup_append.mp hnd
    exact List.nodup_append.mpr ⟨this.1, (List.nodup_cons.mp this.2.1).2,
      fun x hx hy => this.2.2 hx (List.mem_cons_of_mem _ hy)⟩
  · rw [EventUnregister_list, hprevE, hnextE, hhead]
    cases xs with
    | nil => simp
    | cons a r => simp
  · rw [EventUnregister_list, hprevE, hnextE, htail]
    cases ys with
    | nil => simp
    | cons y r => simp
  · apply Linked_remove h _ e xs ys none hl hnd
    · intro x hx
      rw [EventUnregister_heap_other _ _ _ x hx]
    · intro x hx
      rw [EventUnregister_heap_other _ _ _ x hx]
    · intro a ha
      exact absurd ha (by simp)

/-- C10: on a well-formed wait queue with entries `es` containing `e`,
`EventUnregister(e)` leaves the well-formed queue whose entries are `es` without `e`, in
the same relative order (with `head` and `tail` moved when `e` was first or last), and the
`next` and `prev` links of `e` are nil afterwards. -/
theorem EventUnregister_removes (q : Queue) (h : Heap) (es : List Ptr) (e : Ptr)
    (hw : q.Holds h es) (hmem : e ∈ es) :
    (q.EventUnregister h e).1.Holds (q.EventUnregister h e).2 (es.erase e) ∧
    es.erase e = es.filter (fun x => x != e) ∧
    ((q.EventUnregister h e).2 e).next = none ∧
    ((q.EventUnregister h e).2 e).prev = none := by
  refine ⟨EventUnregister_holds q h es e hw hmem, hw.1.erase_eq_filter e, ?_, ?_⟩
  · rw [EventUnregister_heap_self]
  · rw [EventUnregister_heap_self]

theorem EventUnregister_removes_witness :
    (Queue.mk ⟨some 1, some 3⟩).Holds
      (Heap.set (Heap.set (Heap.set Heap.zero 1 ⟨4, some 2, none⟩) 2 ⟨1, some 3, some 1⟩)
        3 ⟨1, none, some 2⟩) [1, 2, 3] ∧
    ((Queue.mk ⟨some 1, some 3⟩).EventUnregister
      (Heap.set (Heap.set (Heap.set Heap.zero 1 ⟨4, some 2, none⟩) 2 ⟨1, some 3, some 1⟩)
        3 ⟨1, none, some 2⟩) 3).1.Holds
    ((Queue.mk ⟨some 1, some 3⟩).EventUnregister
      (Heap.set (Heap.set (Heap.set Heap.zero 1 ⟨4, some 2, none⟩) 2 ⟨1, some 3, some 1⟩)
        3 ⟨1, none, some 2⟩) 3).2
      ([1, 2, 3].erase 3) :=
  ⟨by decide,
   (EventUnregister_removes (Queue.mk ⟨some 1, some 3⟩)
      (Heap.set (Heap.set (Heap.set Heap.zero 1 ⟨4, some 2, none⟩) 2 ⟨1, some 3, some 1⟩)
        3 ⟨1, none, some 2⟩) [1, 2, 3] 3
      (by decide) (by decide)).1⟩

/-! ### `SliceWriter.Write` -/

/-- C12: for every `SliceWriter` `s` and input `b`, `Write(b)` returns
`n = min(len(s), len(b))`, puts `b[0:n]` in the first `n` bytes of the storage of `s` and
leaves the later bytes as they were, and afterwards `s` is the original slice without its
first `n` bytes, of length `len(s) − n`. -/
theorem Write_copies_min (s : SliceWriter) (b : List Byte) :
    (SliceWriter.Write s b).n = min s.length b.length ∧
    (SliceWriter.Write s b).storage.take (SliceWriter.Write s b).n
      = b.take (SliceWriter.Write s b).n ∧
    (SliceWriter.Write s b).storage.drop (SliceWriter.Write s b).n
      = s.drop (SliceWriter.Write s b).n ∧
    (SliceWriter.Write s b).storage.length = s.length ∧
    (SliceWriter.Write s b).s = s.drop (SliceWriter.Write s b).n ∧
    (SliceWriter.Write s b).s.length = s.length - (SliceWriter.Write s b).n := by
  have hn : (SliceWriter.Write s b).n = min s.length b.length := rfl
  have hst : (SliceWriter.Write s b).storage = b.take s.length ++ s.drop b.length := rfl
  have hs : (SliceWriter.Write s b).s
      = (SliceWriter.Write s b).storage.drop (SliceWriter.Write s b).n := rfl
  have hl : (b.take s.length).length = min s.length b.length := by
    rw [List.length_take]
  have hdrop : (SliceWriter.Write s b).storage.drop (SliceWriter.Write s b).n
      = s.drop (SliceWriter.Write s b).n := by
    rw [hst, hn, List.drop_left' hl]
    by_cases h : s.length ≤ b.length
    · rw [Nat.min_eq_left h, List.drop_of_length_le h, List.drop_of_length_le (le_refl _)]
    · have h2 : b.length ≤ s.length := by omega
      rw [Nat.min_eq_right h2]
  refine ⟨hn, ?_, hdrop, ?_, ?_, ?_⟩
  · rw [hst, hn, List.take_left' hl]
    by_cases h : s.length ≤ b.length
    · rw [Nat.min_eq_left h]
    · have h2 : b.length ≤ s.length := by omega
      rw [Nat.min_eq_right h2, List.take_of_length_le h2, List.take_of_length_le (le_refl _)]
  · rw [hst, List.length_append, hl, List.length_drop]
    omega
  · rw [hs, hdrop]
  · rw [hs, hdrop, List.length_drop]

/-- C13: `Write(b)` returns `io.ErrShortWrite` exactly when `len(b)` exceeds the
remaining length of the slice (that is, when fewer than `len(b)` bytes were written) and a
nil error otherwise. -/
theorem Write_error (s : SliceWriter) (b : List Byte) :
    ((SliceWriter.Write s b).err = some error.ErrShortWrite ↔ s.length < b.length) ∧
    ((SliceWriter.Write s b).err = none ↔ b.length ≤ s.length) ∧
    ((SliceWriter.Write s b).n < b.length ↔
      (SliceWriter.Write s b).err = some error.ErrShortWrite) := by
  have hn : (SliceWriter.Write s b).n = min s.length b.length := rfl
  have he : (SliceWriter.Write s b).err
      = if min s.length b.length ≠ b.length then some error.ErrShortWrite else none := rfl
  rw [he, hn]
  by_cases h : s.length < b.length
  · have h1 : min s.length b.length ≠ b.length := by omega
    rw [if_pos h1]
    refine ⟨⟨fun _ => h, fun _ => rfl⟩, ⟨fun hh => ?_, fun hh => ?_⟩,
      ⟨fun _ => rfl, fun _ => by omega⟩⟩
    · cases hh
    · omega
  · have h1 : ¬ (min s.length b.length ≠ b.length) := by omega
    rw [if_neg h1]
    refine ⟨⟨fun hh => ?_, fun hh => absurd hh h⟩, ⟨fun _ => by omega, fun _ => rfl⟩,
      ⟨fun hh => ?_, fun hh => ?_⟩⟩
    · cases hh
    · omega
    · cases hh

/-! ### `Stack`: addresses and endpoints -/

/-- C14: with a NIC id that is not a key of the NIC table, `RemoveAddress` and
`AddProtocolAddressWithOptions` return `ErrUnknownNICID` and leave the world as it was,
whatever the NIC and endpoint operations are (none is run); with an id that is present
they return exactly what `removeAddress` resp. `addAddress` of that NIC returns. -/
theorem unknown_nic_or_nic_result {σ : Type} (s : Stack σ) (id : NICID) (addr : Address)
    (pa : ProtocolAddress) (peb : PrimaryEndpointBehavior) (w : σ) :
    (s.nics id = none →
      s.RemoveAddress id addr w = (some Error.ErrUnknownNICID, w) ∧
      s.AddProtocolAddressWithOptions id pa peb w = (some Error.ErrUnknownNICID, w)) ∧
    (∀ n, s.nics id = some n →
      s.RemoveAddress id addr w = n.removeAddress addr w ∧
      s.AddProtocolAddressWithOptions id pa peb w = n.addAddress pa peb w) := by
  refine ⟨fun h => ?_, fun n h => ?_⟩
  · unfold Stack.RemoveAddress Stack.AddProtocolAddressWithOptions
    rw [h]
    exact ⟨rfl, rfl⟩
  · unfold Stack.RemoveAddress Stack.AddProtocolAddressWithOptions
    rw [h]
    exact ⟨rfl, rfl⟩

theorem unknown_nic_or_nic_result_witness :
    logStack.RemoveAddress 7 [10, 0, 0, 1] [] = (some Error.ErrUnknownNICID, []) ∧
    logStack.RemoveAddress 1 [10, 0, 0, 1] [] = (some Error.ErrBadLocalAddress, [1]) ∧
    logStack.AddProtocolAddressWithOptions 1 ⟨2048, ⟨[10, 0, 0, 1], 24⟩⟩ 0 []
      = (none, [2, 24]) :=
  ⟨((unknown_nic_or_nic_result logStack 7 [10, 0, 0, 1] ⟨2048, ⟨[10, 0, 0, 1], 24⟩⟩ 0 []).1
      rfl).1,
   ((unknown_nic_or_nic_result logStack 1 [10, 0, 0, 1] ⟨2048, ⟨[10, 0, 0, 1], 24⟩⟩ 0 []).2
      logNic rfl).1,
   ((unknown_nic_or_nic_result logStack 1 [10, 0, 0, 1] ⟨2048, ⟨[10, 0, 0, 1], 24⟩⟩ 0 []).2
      logNic rfl).2⟩

/-- C15: for a network protocol number that is not registered, `AddAddressWithOptions`
and `AddAddress` return `ErrUnknownProtocol` and leave the world as it was; the result is
the same whatever the NIC table holds, so also when the NIC id is unknown. -/
theorem unknown_protocol_first {σ : Type} (s : Stack σ) (id : NICID)
    (p : NetworkProtocolNumber) (addr : Address) (peb : PrimaryEndpointBehavior) (w : σ)
    (h : s.networkProtocols p = none) :
    s.AddAddressWithOptions id p addr peb w = (some Error.ErrUnknownProtocol, w) ∧
    s.AddAddress id p addr w = (some Error.ErrUnknownProtocol, w) ∧
    (∀ nics : NICID → Option (nic σ),
      (Stack.mk s.transportProtocols s.networkProtocols nics).AddAddressWithOptions
          id p addr peb w = (some Error.ErrUnknownProtocol, w) ∧
      (Stack.mk s.transportProtocols s.networkProtocols nics).AddAddress id p addr w
        = (some Error.ErrUnknownProtocol, w)) := by
  have key : ∀ (t : Stack σ) (q : PrimaryEndpointBehavior), t.networkProtocols p = none →
      t.AddAddressWithOptions id p addr q w = (some Error.ErrUnknownProtocol, w) := by
    intro t q ht
    unfold Stack.AddAddressWithOptions
    rw [ht]
  exact ⟨key s peb h, key s _ h, fun nics => ⟨key _ peb h, key _ _ h⟩⟩

theorem unknown_protocol_first_witness :
    logStack.nics 7 = none ∧
    logStack.AddAddressWithOptions 7 99 [10, 0, 0, 1] 0 []
      = (some Error.ErrUnknownProtocol, []) ∧
    logStack.AddAddress 1 99 [10, 0, 0, 1] [] = (some Error.ErrUnknownProtocol, []) :=
  ⟨rfl,
   (unknown_protocol_first logStack 7 99 [10, 0, 0, 1] 0 [] rfl).1,
   (unknown_protocol_first logStack 1 99 [10, 0, 0, 1] 0 [] rfl).2.1⟩

/-- C16: `NewEndpoint(transport, network, wq)` returns `(nil, ErrUnknownProtocol)` and
leaves the world as it was when `transport` is not registered; when it is registered the
result is exactly that of the protocol's `NewEndpoint(network, wq)`, called with the same
network number and wait queue. -/
theorem NewEndpoint_dispatch {σ : Type} (s : Stack σ) (transport : TransportProtocolNumber)
    (network : NetworkProtocolNumber) (wq : Option Ptr) (w : σ) :
    (s.transportProtocols transport = none →
      s.NewEndpoint transport network wq w = ((none, some Error.ErrUnknownProtocol), w)) ∧
    (∀ t, s.transportProtocols transport = some t →
      s.NewEndpoint transport network wq w = t.proto.NewEndpoint network wq w) := by
  refine ⟨fun h => ?_, fun t h => ?_⟩
  · unfold Stack.NewEndpoint
    rw [h]
  · unfold Stack.NewEndpoint
    rw [h]

theorem NewEndpoint_dispatch_witness :
    logStack.NewEndpoint 6 2048 (some 5) [] = ((none, some Error.ErrUnknownProtocol), []) ∧
    logStack.NewEndpoint 17 2048 (some 5) [] = ((some 5, none), [4, 2048]) :=
  ⟨(NewEndpoint_dispatch logStack 6 2048 (some 5) []).1 rfl,
   (NewEndpoint_dispatch logStack 17 2048 (some 5) []).2
     { proto := { NewEndpoint := fun n wq w => ((wq, none), w ++ [4, n]) } } rfl⟩

/-- C17: for a registered network protocol `p`, `AddAddress(id, p, addr)` has the result
and the effect of `AddProtocolAddressWithOptions(id, {Protocol: p, Address: addr,
PrefixLen: p's DefaultPrefixLen()}, CanBePrimaryEndpoint)`, and `CanBePrimaryEndpoint`
is the zero value of `PrimaryEndpointBehavior`. -/
theorem AddAddress_eq_AddProtocolAddress {σ : Type} (s : Stack σ) (id : NICID)
    (p : NetworkProtocolNumber) (netProto : NetworkProtocol σ) (addr : Address) (w : σ)
    (h : s.networkProtocols p = some netProto) :
    s.AddAddress id p addr w = s.AddAddressViaProtocolAddress id p netProto addr w ∧
    CanBePrimaryEndpoint = 0 := by
  refine ⟨?_, rfl⟩
  unfold Stack.AddAddress Stack.AddAddressWithOptions Stack.AddAddressViaProtocolAddress
  rw [h]

theorem AddAddress_eq_AddProtocolAddress_witness :
    logStack.AddAddress 1 2048 [10, 0, 0, 1] [] = (none, [3, 2, 32]) ∧
    logStack.AddAddressViaProtocolAddress 1 2048
      { DefaultPrefixLen := fun w => (32, w ++ [3]) } [10, 0, 0, 1] [] = (none, [3, 2, 32]) :=
  ⟨((AddAddress_eq_AddProtocolAddress logStack 1 2048
      { DefaultPrefixLen := fun w => (32, w ++ [3]) } [10, 0, 0, 1] [] rfl).1).trans rfl,
   rfl⟩

/-! ### Tables, hooks and flag counters -/

/-- An index expression on a Go array succeeds exactly for `0 ≤ i < n`. -/
theorem GoArray.get?_isSome {α : Type} {n : Nat} (a : GoArray α n) (i : Int) :
    (a.get? i).isSome ↔ 0 ≤ i ∧ i < n := by
  unfold GoArray.get?
  by_cases h : 0 ≤ i
  · rw [if_pos h]
    by_cases h2 : i.toNat < a.elems.length
    · rw [List.getElem?_eq_getElem h2]
      have := a.size_eq
      simp only [Option.isSome_some, true_iff]
      omega
    · rw [List.getElem?_eq_none (by omega)]
      have := a.size_eq
      simp only [Option.isSome_none, Bool.false_eq_true, false_iff]
      omega
  · rw [if_neg h]
    simp only [Option.isSome_none, Bool.false_eq_true, false_iff]
    omega

/-- C18: `NATID = 0`, `MangleID = 1`, `FilterID = 2` and `NumTables = 3`; `v4Tables` and
`v6Tables` of every `IPTables` have exactly three slots, and a table id is a valid index
of them exactly when it is `NATID`, `MangleID` or `FilterID`. -/
theorem three_builtin_tables {ρ : Type} (t : IPTables ρ) (id : TableID) :
    NATID = 0 ∧ MangleID = 1 ∧ FilterID = 2 ∧ NumTables = 3 ∧
    t.v4Tables.elems.length = 3 ∧ t.v6Tables.elems.length = 3 ∧
    ((t.v4Tables.get? id).isSome ↔ id = NATID ∨ id = MangleID ∨ id = FilterID) ∧
    ((t.v6Tables.get? id).isSome ↔ id = NATID ∨ id = MangleID ∨ id = FilterID) := by
  have h0 : NATID = 0 := rfl
  have h1 : MangleID = 1 := rfl
  have h2 : FilterID = 2 := rfl
  have h3 : NumTables = 3 := rfl
  have hn : NumTables.toNat = 3 := rfl
  have key : ∀ i : Int, (0 ≤ i ∧ i < ((3 : Nat) : Int)) ↔ (i = 0 ∨ i = 1 ∨ i = 2) := by
    intro i
    constructor <;> intro h <;> omega
  refine ⟨h0, h1, h2, h3, ?_, ?_, ?_, ?_⟩
  · rw [t.v4Tables.size_eq, hn]
  · rw [t.v6Tables.size_eq, hn]
  · rw [GoArray.get?_isSome, hn, h0, h1, h2]
    exact key id
  · rw [GoArray.get?_isSome, hn, h0, h1, h2]
    exact key id

/-- C19: the hooks are `Prerouting = 0`, `Input = 1`, `Forward = 2`, `Output = 3`,
`Postrouting = 4` and `NumHooks = 5`; `BuiltinChains` and `Underflows` of every `Table`
have exactly five slots, and a hook is a valid index of them exactly when it is one of
the five. -/
theorem five_hooks {ρ : Type} (t : Table ρ) (hook : Hook) :
    Prerouting = 0 ∧ Input = 1 ∧ Forward = 2 ∧ Output = 3 ∧ Postrouting = 4 ∧
    NumHooks = 5 ∧
    t.BuiltinChains.elems.length = 5 ∧ t.Underflows.elems.length = 5 ∧
    ((t.BuiltinChains.get? (hook : Int)).isSome ↔
      hook = Prerouting ∨ hook = Input ∨ hook = Forward ∨ hook = Output ∨
        hook = Postrouting) ∧
    ((t.Underflows.get? (hook : Int)).isSome ↔
      hook = Prerouting ∨ hook = Input ∨ hook = Forward ∨ hook = Output ∨
        hook = Postrouting) := by
  have h0 : Prerouting = 0 := rfl
  have h1 : Input = 1 := rfl
  have h2 : Forward = 2 := rfl
  have h3 : Output = 3 := rfl
  have h4 : Postrouting = 4 := rfl
  have h5 : NumHooks = 5 := rfl
  refine ⟨h0, h1, h2, h3, h4, h5, ?_, ?_, ?_, ?_⟩
  · rw [t.BuiltinChains.size_eq, h5]
  · rw [t.Underflows.size_eq, h5]
  · rw [GoArray.get?_isSome, h5, h0, h1, h2, h3, h4]
    show (0 ≤ (hook : Int) ∧ (hook : Int) < ((5 : Nat) : Int)) ↔
      (@Eq Nat hook 0 ∨ @Eq Nat hook 1 ∨ @Eq Nat hook 2 ∨ @Eq Nat hook 3 ∨ @Eq Nat hook 4)
    constructor <;> intro h <;> omega
  · rw [GoArray.get?_isSome, h5, h0, h1, h2, h3, h4]
    show (0 ≤ (hook : Int) ∧ (hook : Int) < ((5 : Nat) : Int)) ↔
      (@Eq Nat hook 0 ∨ @Eq Nat hook 1 ∨ @Eq Nat hook 2 ∨ @Eq Nat hook 3 ∨ @Eq Nat hook 4)
    constructor <;> intro h <;> omega

/-- C20: `FlagMask = MostRecentFlag | LoadBalancedFlag | TupleOnlyFlag = 7`, `refs` of
every `FlagCounter` has exactly `FlagMask + 1 = 8` slots, `f & FlagMask` is a valid index
of `refs` for every `f`, and `MultiBindFlagMask = MostRecentFlag | LoadBalancedFlag` lies
within `FlagMask` and has no bit of `TupleOnlyFlag`. -/
theorem flag_counter_slots (fc : FlagCounter) (f : BitFlags) :
    FlagMask = MostRecentFlag ||| LoadBalancedFlag ||| TupleOnlyFlag ∧ FlagMask = 7 ∧
    fc.refs.elems.length = FlagMask + 1 ∧ fc.refs.elems.length = 8 ∧
    f &&& FlagMask < fc.refs.elems.length ∧
    (fc.refs.get? ((f &&& FlagMask : Nat) : Int)).isSome ∧
    MultiBindFlagMask = MostRecentFlag ||| LoadBalancedFlag ∧
    MultiBindFlagMask &&& FlagMask = MultiBindFlagMask ∧
    MultiBindFlagMask &&& TupleOnlyFlag = 0 := by
  have hm : FlagMask = 7 := rfl
  have hn : nextFlag = 8 := rfl
  have hlen : fc.refs.elems.length = 8 := by rw [fc.refs.size_eq, hn]
  have hlt : f &&& FlagMask < 8 := by
    have h7 : f &&& FlagMask ≤ FlagMask := Nat.and_le_right
    rw [hm] at h7 ⊢
    exact Nat.lt_succ_of_le h7
  refine ⟨by decide, hm, by rw [hlen, hm], hlen, by rw [hlen]; exact hlt, ?_, rfl,
    by decide, by decide⟩
  rw [GoArray.get?_isSome, hn]
  exact ⟨Int.ofNat_nonneg _, Int.ofNat_lt.mpr hlt⟩

/-! ### Sequences of calls on a wait queue -/

theorem walk_linked (h : Heap) (es : List Ptr) (p : Option Ptr) (hl : Linked h p es) :
    walk h es.length es.head? = some es := by
  induction es generalizing p with
  | nil => rfl
  | cons a rest ih =>
    obtain ⟨-, hn, hr⟩ := hl
    show (walk h rest.length (h a).next).map (fun es => a :: es) = some (a :: rest)
    rw [hn, ih (some a) hr]
    rfl

/-- An entry whose `next` is itself is never left by a walk. -/
theorem walk_self_loop (h : Heap) (a : Ptr) (hs : (h a).next = some a) (n : Nat) :
    walk h n (some a) = none := by
  induction n with
  | zero => rfl
  | succ k ih =>
    show (walk h k (h a).next).map (fun es => a :: es) = none
    rw [hs, ih]
    rfl

/-- The links of a linked entry point into the queue. -/
theorem Holds_links_mem (q : Queue) (h : Heap) (es : List Ptr) (e : Ptr)
    (hw : q.Holds h es) (hmem : e ∈ es) :
    (∀ x, (h e).prev = some x → x ∈ es) ∧ (∀ x, (h e).next = some x → x ∈ es) := by
  obtain ⟨-, -, -, hl⟩ := hw
  obtain ⟨xs, ys, hes⟩ := List.append_of_mem hmem
  subst hes
  obtain ⟨hp, hn⟩ := Linked_links h e xs ys none hl
  rw [lastOr_none_eq] at hp
  constructor
  · intro x hx
    rw [hp] at hx
    exact List.mem_append_left _ (List.mem_of_mem_getLast? hx)
  · intro x hx
    rw [hn] at hx
    exact List.mem_append_right _ (List.mem_cons_of_mem _ (List.mem_of_mem_head? hx))

theorem EventRegister_unlinked (q : Queue) (h : Heap) (es : List Ptr) (e : Ptr)
    (m : EventMask) (hw : q.Holds h es) (hu : Unlinked h es) :
    Unlinked (q.EventRegister h e m).2 (es ++ [e]) := by
  intro x hx
  have hxes : x ∉ es := fun hh => hx (List.mem_append_left _ hh)
  have hxe : x ≠ e := fun hh => hx (List.mem_append_right _ (by rw [hh]; simp))
  have ht : ¬ (q.list.tail = some x) := by
    rw [hw.2.2.1]
    intro hh
    exact hxes (List.mem_of_mem_getLast? hh)
  rw [EventRegister_heap_other _ _ _ _ x hxe]
  simp only [ht, if_false]
  exact hu x hxes

theorem EventUnregister_unlinked (q : Queue) (h : Heap) (es : List Ptr) (e : Ptr)
    (hw : q.Holds h es) (hu : Unlinked h es) (hmem : e ∈ es) :
    Unlinked (q.EventUnregister h e).2 (es.erase e) := by
  intro x hx
  by_cases hxe : x = e
  · subst hxe
    rw [EventUnregister_heap_self]
    exact ⟨rfl, rfl⟩
  · have hxes : x ∉ es := fun hh => hx ((List.mem_erase_of_ne hxe).mpr hh)
    obtain ⟨hp, hn⟩ := Holds_links_mem q h es e hw hmem
    have h1 : ¬ ((h e).prev = some x) := fun hh => hxes (hp x hh)
    have h2 : ¬ ((h e).next = some x) := fun hh => hxes (hn x hh)
    rw [EventUnregister_heap_other _ _ _ x hxe]
    simp only [h1, h2, if_false]
    exact hu x hxes

/-- Unregistering an entry that is not linked and has nil links changes nothing. -/
theorem EventUnregister_not_linked (q : Queue) (h : Heap) (e : Ptr)
    (hnext : (h e).next = none) (hprev : (h e).prev = none)
    (hhead : q.list.head ≠ some e) (htail : q.list.tail ≠ some e) :
    q.EventUnregister h e = (q, h) := by
  have hq : (q.EventUnregister h e).1 = q := by
    have hl := EventUnregister_list q h e
    simp only [hhead, htail, and_false, if_false] at hl
    cases q with
    | mk l =>
      cases hq2 : (Queue.EventUnregister { list := l } h e).1 with
      | mk l2 =>
        rw [hq2] at hl
        simp only at hl
        rw [hl]
  have hh : (q.EventUnregister h e).2 = h := by
    funext x
    by_cases hxe : x = e
    · subst hxe
      rw [EventUnregister_heap_self]
      exact Entry.eq_of_fields rfl hnext.symm hprev.symm
    · rw [EventUnregister_heap_other _ _ _ x hxe, hnext, hprev]
      simp
  exact Prod.ext hq hh

/-- Calls that never register an entry still linked keep the queue well formed, with
exactly the tracked entries linked and every other entry with nil links. -/
theorem run_holds (ops : List QueueOp) :
    ∀ (q : Queue) (h : Heap) (es : List Ptr), q.Holds h es → Unlinked h es →
      NoDoubleRegister es ops →
      (Queue.run (q, h) ops).1.Holds (Queue.run (q, h) ops).2 (linkedAfter es ops) ∧
      Unlinked (Queue.run (q, h) ops).2 (linkedAfter es ops) := by
  induction ops with
  | nil =>
    intro q h es hw hu _
    exact ⟨hw, hu⟩
  | cons op rest ih =>
    intro q h es hw hu hadm
    cases op with
    | register e m =>
      obtain ⟨hne, hrest⟩ := hadm
      exact ih (q.EventRegister h e m).1 (q.EventRegister h e m).2 (es ++ [e])
        (EventRegister_holds q h es e m hw hne) (EventRegister_unlinked q h es e m hw hu)
        hrest
    | unregister e =>
      have hrest : NoDoubleRegister (es.erase e) rest := hadm
      by_cases hmem : e ∈ es
      · exact ih (q.EventUnregister h e).1 (q.EventUnregister h e).2 (es.erase e)
          (EventUnregister_holds q h es e hw hmem)
          (EventUnregister_unlinked q h es e hw hu hmem) hrest
      · have hsame : q.EventUnregister h e = (q, h) := by
          apply EventUnregister_not_linked q h e (hu e hmem).1 (hu e hmem).2
          · rw [hw.2.1]
            intro hh
            exact hmem (List.mem_of_mem_head? hh)
          · rw [hw.2.2.1]
            intro hh
            exact hmem (List.mem_of_mem_getLast? hh)
        have herase : es.erase e = es := List.erase_of_not_mem hmem
        show (Queue.run (q.EventUnregister h e) rest).1.Holds
            (Queue.run (q.EventUnregister h e) rest).2 (linkedAfter (es.erase e) rest) ∧
          Unlinked (Queue.run (q.EventUnregister h e) rest).2 (linkedAfter (es.erase e) rest)
        rw [hsame, herase]
        rw [herase] at hrest
        exact ih q h es hw hu hrest

/-- C11 (refuted as stated): registering entry 1 twice on the empty queue, with no
unregister in between, leaves `head = 1` and `1.next = 1`; walking from `head` through
`next` visits entry 1 again and again and reaches nil with no amount of steps. -/
theorem double_register_never_ends :
    (Queue.run (Queue.empty, Heap.zero)
      [QueueOp.register 1 1, QueueOp.register 1 1]).1.list.head = some 1 ∧
    ((Queue.run (Queue.empty, Heap.zero)
      [QueueOp.register 1 1, QueueOp.register 1 1]).2 1).next = some 1 ∧
    ¬ ∃ n : Nat, (walk
      (Queue.run (Queue.empty, Heap.zero) [QueueOp.register 1 1, QueueOp.register 1 1]).2 n
      (Queue.run (Queue.empty, Heap.zero)
        [QueueOp.register 1 1, QueueOp.register 1 1]).1.list.head).isSome = true := by
  have h1 : (Queue.run (Queue.empty, Heap.zero)
      [QueueOp.register 1 1, QueueOp.register 1 1]).1.list.head = some 1 := by decide
  have h2 : ((Queue.run (Queue.empty, Heap.zero)
      [QueueOp.register 1 1, QueueOp.register 1 1]).2 1).next = some 1 := by decide
  refine ⟨h1, h2, ?_⟩
  rintro ⟨n, hn⟩
  rw [h1, walk_self_loop _ 1 h2 n] at hn
  exact absurd hn (by decide)

/-- C11 (amended): after every sequence of `EventRegister` and `EventUnregister` calls
on the empty queue, over entries whose links are nil at the start, that never registers
an entry still linked, walking from `head` through `next` reaches nil, visits exactly the
entries registered and not unregistered since, in order of registration, and visits no
entry twice. -/
theorem walk_after_calls (h0 : Heap) (ops : List QueueOp) (hfresh : Unlinked h0 [])
    (hadm : NoDoubleRegister [] ops) :
    walk (Queue.run (Queue.empty, h0) ops).2 (linkedAfter [] ops).length
        (Queue.run (Queue.empty, h0) ops).1.list.head = some (linkedAfter [] ops) ∧
    (linkedAfter [] ops).Nodup := by
  have hw0 : Queue.empty.Holds h0 [] := ⟨List.nodup_nil, rfl, rfl, trivial⟩
  obtain ⟨⟨hnd, hhead, -, hl⟩, -⟩ := run_holds ops Queue.empty h0 [] hw0 hfresh hadm
  refine ⟨?_, hnd⟩
  rw [hhead]
  exact walk_linked _ _ none hl

theorem walk_after_calls_witness :
    NoDoubleRegister [] [QueueOp.register 1 1, QueueOp.register 2 1, QueueOp.unregister 1,
      QueueOp.register 1 4, QueueOp.unregister 5] ∧
    linkedAfter [] [QueueOp.register 1 1, QueueOp.register 2 1, QueueOp.unregister 1,
      QueueOp.register 1 4, QueueOp.unregister 5] = [2, 1] ∧
    walk (Queue.run (Queue.empty, Heap.zero) [QueueOp.register 1 1, QueueOp.register 2 1,
        QueueOp.unregister 1, QueueOp.register 1 4, QueueOp.unregister 5]).2
      (linkedAfter [] [QueueOp.register 1 1, QueueOp.register 2 1, QueueOp.unregister 1,
        QueueOp.register 1 4, QueueOp.unregister 5]).length
      (Queue.run (Queue.empty, Heap.zero) [QueueOp.register 1 1, QueueOp.register 2 1,
        QueueOp.unregister 1, QueueOp.register 1 4, QueueOp.unregister 5]).1.list.head
      = some (linkedAfter [] [QueueOp.register 1 1, QueueOp.register 2 1,
        QueueOp.unregister 1, QueueOp.register 1 4, QueueOp.unregister 5]) :=
  ⟨by decide, by decide,
   (walk_after_calls Heap.zero [QueueOp.register 1 1, QueueOp.register 2 1,
      QueueOp.unregister 1, QueueOp.register 1 4, QueueOp.unregister 5]
      (fun _ _ => ⟨rfl, rfl⟩) (by decide)).1⟩

/-! ### `VectorisedView.Read`: what remains, and reading in chunks -/

/-- The views left by the loop of `Read`: `k` whole views are gone from the front and the
first remaining view has lost `c` bytes at its front, `c = 0` unless the loop stopped
inside that view; together these are the bytes copied. -/
theorem ReadLoop_views (views : List View) :
    ∀ (size : Int) (b : List Byte) (count copied : Nat),
      ∃ k c : Nat,
        (ReadLoop views size b count copied).vv.views
          = (views.drop k).modifyHead (List.drop c) ∧
        (views.take k).flatten.length + c = min count views.flatten.length ∧
        (c = 0 ∨ ∃ v rest, views.drop k = v :: rest ∧ c < v.length) := by
  induction views with
  | nil =>
    intro size b count copied
    refine ⟨0, 0, ?_, by simp, Or.inl rfl⟩
    unfold ReadLoop ReadExit
    split <;> rfl
  | cons v rest ih =>
    intro size b count copied
    unfold ReadLoop
    by_cases hc : count > 0
    · simp only [hc, if_true]
      by_cases hlt : count < v.length
      · simp only [hlt, if_true]
        refine ⟨0, count, rfl, ?_, Or.inr ⟨v, rest, rfl, hlt⟩⟩
        simp only [List.take_zero, List.flatten_nil, List.length_nil, List.flatten_cons,
          List.length_append]
        omega
      · simp only [hlt, if_false]
        obtain ⟨k, c, h1, h2, h3⟩ :=
          ih (VectorisedView.removeFirst { views := v :: rest, size := size }).size
            (b.take copied ++ copy (b.drop copied) v) (count - v.length) (copied + v.length)
        refine ⟨k + 1, c, ?_, ?_, ?_⟩
        · rw [h1]
          rfl
        · clear h3 h1
          simp only [List.take_succ_cons, List.flatten_cons, List.length_append]
          omega
        · exact h3
    · simp only [hc, if_false]
      refine ⟨0, 0, ?_, by simp; omega, Or.inl rfl⟩
      unfold ReadExit
      split <;> simp

/-- On the values held: after `Read` has copied `n` bytes, the concatenation of the
views that remain is the original concatenation without its first `n` bytes, and the
copied bytes followed by the remaining ones are the original bytes; the remaining views
are the original ones with `k` whole views removed from the front and at most the first
remaining view trimmed at its front. -/
theorem Read_values_remaining (vv : VectorisedView) (b : List Byte) :
    (vv.Read b).vv.views.flatten = vv.views.flatten.drop (vv.Read b).copied ∧
    (vv.Read b).b.take (vv.Read b).copied ++ (vv.Read b).vv.views.flatten
      = vv.views.flatten ∧
    ∃ k c : Nat,
      (vv.Read b).vv.views = (vv.views.drop k).modifyHead (List.drop c) ∧
      (vv.views.take k).flatten.length + c = (vv.Read b).copied ∧
      (c = 0 ∨ ∃ v rest, vv.views.drop k = v :: rest ∧ c < v.length) := by
  obtain ⟨h1, h2, h3, -, -⟩ := Read_spec vv b
  have h3b : (vv.Read b).vv.views.flatten = vv.views.flatten.drop (vv.Read b).copied := by
    rw [h2]; exact h3
  refine ⟨h3b, ?_, ?_⟩
  · have htl : (vv.bytes.take (min b.length vv.bytes.length)).length
        = min b.length vv.bytes.length := by
      rw [List.length_take]; omega
    rw [h3b, h1, h2, List.take_left' htl]
    exact List.take_append_drop _ _
  · obtain ⟨k, c, hk1, hk2, hk3⟩ := ReadLoop_views vv.views vv.size b b.length 0
    exact ⟨k, c, hk1, by rw [h2]; exact hk2, hk3⟩

/-- Reading to the end with a destination of at least one byte returns the bytes of the
views, as soon as the number of calls allowed exceeds the number of bytes. -/
theorem readAll_spec (fuel : Nat) :
    ∀ (vv : VectorisedView) (b : List Byte), 1 ≤ b.length → vv.bytes.length < fuel →
      readAll fuel vv b = some vv.bytes := by
  induction fuel with
  | zero =>
    intro vv b _ hlt
    omega
  | succ n ih =>
    intro vv b hb hlt
    obtain ⟨h1, h2, h3, -, h5⟩ := Read_spec vv b
    unfold readAll
    by_cases hz : vv.bytes.length = 0
    · have hmin : min b.length vv.bytes.length = 0 := by omega
      rw [h5, if_pos hmin, if_pos rfl]
      rw [List.length_eq_zero.mp hz]
    · have hmin : ¬ (min b.length vv.bytes.length = 0) := by omega
      have herr : ¬ ((vv.Read b).err = some error.EOF) := by
        rw [h5, if_neg hmin]
        exact fun hh => by cases hh
      rw [if_neg herr]
      have htl : (vv.bytes.take (min b.length vv.bytes.length)).length
          = min b.length vv.bytes.length := by
        rw [List.length_take]; omega
      have hblen : 1 ≤ (vv.Read b).b.length := by
        rw [h1, List.length_append, htl, List.length_drop]
        omega
      have hrem : (vv.Read b).vv.bytes.length < n := by
        rw [h3, List.length_drop]
        omega
      rw [ih (vv.Read b).vv (vv.Read b).b hblen hrem, h3, h2, h1, List.take_left' htl]
      simp only [Option.map_some']
      rw [List.take_append_drop]

/-! ### The wait queue: register then unregister, and unregistering again -/

/-- The last entry of a chain has a nil `next`. -/
theorem Linked_last_next (h : Heap) (es : List Ptr) (p : Option Ptr) (t : Ptr)
    (hl : Linked h p es) (ht : es.getLast? = some t) : (h t).next = none := by
  obtain ⟨ys, hys⟩ := List.getLast?_eq_some_iff.mp ht
  subst hys
  exact (Linked_links h t ys [] p hl).2

/-- The queue and the heap after `EventRegister(e, m)` followed by `EventUnregister(e)`,
for an entry `e` that is not linked in a well-formed queue. -/
theorem register_unregister_state (q : Queue) (h : Heap) (es : List Ptr) (e : Ptr)
    (m : EventMask) (hw : q.Holds h es) (hne : e ∉ es) :
    ((q.EventRegister h e m).1.EventUnregister (q.EventRegister h e m).2 e).1 = q ∧
    (∀ x, x ≠ e →
      ((q.EventRegister h e m).1.EventUnregister (q.EventRegister h e m).2 e).2 x = h x) ∧
    ((q.EventRegister h e m).1.EventUnregister (q.EventRegister h e m).2 e).2 e
      = { mask := m, next := none, prev := none } := by
  obtain ⟨hnd, hhead, htail, hl⟩ := hw
  have hte : ¬ (q.list.tail = some e) := by
    rw [htail]
    intro hh
    exact hne (List.mem_of_mem_getLast? hh)
  have h1e : (q.EventRegister h e m).2 e
      = { mask := m, next := none, prev := q.list.tail } := by
    rw [EventRegister_heap_self, if_neg hte]
  refine ⟨?_, ?_, ?_⟩
  · have hl2 := EventUnregister_list (q.EventRegister h e m).1 (q.EventRegister h e m).2 e
    rw [h1e, EventRegister_list] at hl2
    have hlist : ((q.EventRegister h e m).1.EventUnregister
        (q.EventRegister h e m).2 e).1.list = q.list := by
      rw [hl2]
      cases hq : q.list with
      | mk hd tl =>
        rw [hq] at hhead htail
        simp only at hhead htail
        cases tl with
        | none =>
          have hes : es = [] := List.getLast?_eq_none_iff.mp htail.symm
          rw [hes] at hhead
          simp only [List.head?_nil] at hhead
          simp [hhead]
        | some t => simp
    cases hr : ((q.EventRegister h e m).1.EventUnregister (q.EventRegister h e m).2 e).1 with
    | mk l2 =>
      rw [hr] at hlist
      cases q with
      | mk l =>
        simp only at hlist
        rw [hlist]
  · intro x hx
    rw [EventUnregister_heap_other _ _ _ x hx, h1e, EventRegister_heap_other _ _ _ _ x hx]
    apply Entry.eq_of_fields
    · rfl
    · show (if q.list.tail = some x then none
          else (if q.list.tail = some x then some e else (h x).next)) = (h x).next
      by_cases hx2 : q.list.tail = some x
      · rw [if_pos hx2]
        rw [htail] at hx2
        exact (Linked_last_next h es none x hl hx2).symm
      · rw [if_neg hx2, if_neg hx2]
    · show (if (none : Option Ptr) = some x then q.list.tail else (h x).prev) = (h x).prev
      rw [if_neg (by simp)]
  · rw [EventUnregister_heap_self, h1e]

/-- C24: on a well-formed wait queue with an entry `e` not linked in it,
`EventRegister(e, m)` followed by `EventUnregister(e)` gives back the queue (`head` and
`tail`), leaves every other entry as it was, leaves `e` with nil links and mask `m`, and
the queue holds the same entries as before; if the links of `e` were nil before, only the
mask of `e` has changed. -/
theorem register_then_unregister_restores (q : Queue) (h : Heap) (es : List Ptr) (e : Ptr)
    (m : EventMask) (hw : q.Holds h es) (hne : e ∉ es) :
    ((q.EventRegister h e m).1.EventUnregister (q.EventRegister h e m).2 e).1 = q ∧
    (∀ x, x ≠ e →
      ((q.EventRegister h e m).1.EventUnregister (q.EventRegister h e m).2 e).2 x = h x) ∧
    (((q.EventRegister h e m).1.EventUnregister (q.EventRegister h e m).2 e).2 e).next
      = none ∧
    (((q.EventRegister h e m).1.EventUnregister (q.EventRegister h e m).2 e).2 e).prev
      = none ∧
    (((q.EventRegister h e m).1.EventUnregister (q.EventRegister h e m).2 e).2 e).mask
      = m ∧
    ((q.EventRegister h e m).1.EventUnregister (q.EventRegister h e m).2 e).1.Holds
      ((q.EventRegister h e m).1.EventUnregister (q.EventRegister h e m).2 e).2 es ∧
    ((h e).next = none → (h e).prev = none →
      ((q.EventRegister h e m).1.EventUnregister (q.EventRegister h e m).2 e).2
        = Heap.set h e { h e with mask := m }) := by
  obtain ⟨hq, hx, he⟩ := register_unregister_state q h es e m hw hne
  refine ⟨hq, hx, by rw [he], by rw [he], by rw [he], ?_, ?_⟩
  · rw [hq]
    refine ⟨hw.1, hw.2.1, hw.2.2.1, ?_⟩
    apply Linked_frame h _ none es _ hw.2.2.2
    intro x hxes
    have hxe : x ≠ e := fun hh => hne (hh ▸ hxes)
    rw [hx x hxe]
    exact ⟨rfl, rfl⟩
  · intro hn hp
    funext x
    by_cases hxe : x = e
    · subst hxe
      rw [he]
      unfold Heap.set
      rw [if_pos rfl]
      exact Entry.eq_of_fields rfl hn.symm hp.symm
    · rw [hx x hxe]
      unfold Heap.set
      rw [if_neg hxe]

theorem register_then_unregister_restores_witness :
    (Queue.mk ⟨some 1, some 2⟩).Holds
      (Heap.set (Heap.set Heap.zero 1 ⟨4, some 2, none⟩) 2 ⟨1, none, some 1⟩) [1, 2] ∧
    (((Queue.mk ⟨some 1, some 2⟩).EventRegister
        (Heap.set (Heap.set Heap.zero 1 ⟨4, some 2, none⟩) 2 ⟨1, none, some 1⟩) 7 5).1.EventUnregister
      ((Queue.mk ⟨some 1, some 2⟩).EventRegister
        (Heap.set (Heap.set Heap.zero 1 ⟨4, some 2, none⟩) 2 ⟨1, none, some 1⟩) 7 5).2 7).1
      = Queue.mk ⟨some 1, some 2⟩ :=
  ⟨by decide,
   (register_then_unregister_restores (Queue.mk ⟨some 1, some 2⟩)
      (Heap.set (Heap.set Heap.zero 1 ⟨4, some 2, none⟩) 2 ⟨1, none, some 1⟩) [1, 2] 7 5
      (by decide) (by decide)).1⟩

/-- In a well-formed queue no linked entry points to itself. -/
theorem Holds_links_ne_self (q : Queue) (h : Heap) (es : List Ptr) (e : Ptr)
    (hw : q.Holds h es) (hmem : e ∈ es) :
    (h e).next ≠ some e ∧ (h e).prev ≠ some e := by
  obtain ⟨hnd, -, -, hl⟩ := hw
  obtain ⟨xs, ys, hes⟩ := List.append_of_mem hmem
  subst hes
  obtain ⟨hp, hn⟩ := Linked_links h e xs ys none hl
  rw [lastOr_none_eq] at hp
  have hsplit := List.nodup_append.mp hnd
  constructor
  · intro hh
    rw [hn] at hh
    exact (List.nodup_cons.mp hsplit.2.1).1 (List.mem_of_mem_head? hh)
  · intro hh
    rw [hp] at hh
    exact hsplit.2.2 (List.mem_of_mem_getLast? hh) (List.mem_cons_self _ _)

/-- On a well-formed queue a second `EventUnregister` of the same entry changes
nothing. -/
theorem EventUnregister_twice (q : Queue) (h : Heap) (es : List Ptr) (e : Ptr)
    (hw : q.Holds h es) :
    (q.EventUnregister h e).1.EventUnregister (q.EventUnregister h e).2 e
      = q.EventUnregister h e := by
  have hhead : (q.EventUnregister h e).1.list.head ≠ some e := by
    rw [EventUnregister_list]
    show (if (h e).prev = none ∧ q.list.head = some e then (h e).next else q.list.head)
      ≠ some e
    by_cases hc : (h e).prev = none ∧ q.list.head = some e
    · rw [if_pos hc]
      have hmem : e ∈ es := by
        have := hc.2
        rw [hw.2.1] at this
        exact List.mem_of_mem_head? this
      exact (Holds_links_ne_self q h es e hw hmem).1
    · rw [if_neg hc]
      intro hh
      apply hc
      refine ⟨?_, hh⟩
      rw [hw.2.1] at hh
      cases es with
      | nil => cases hh
      | cons a r =>
        have hae : a = e := Option.some.inj hh
        rw [← hae]
        exact hw.2.2.2.1
  have htail : (q.EventUnregister h e).1.list.tail ≠ some e := by
    rw [EventUnregister_list]
    show (if (h e).next = none ∧ q.list.tail = some e then (h e).prev else q.list.tail)
      ≠ some e
    by_cases hc : (h e).next = none ∧ q.list.tail = some e
    · rw [if_pos hc]
      have hmem : e ∈ es := by
        have := hc.2
        rw [hw.2.2.1] at this
        exact List.mem_of_mem_getLast? this
      exact (Holds_links_ne_self q h es e hw hmem).2
    · rw [if_neg hc]
      intro hh
      apply hc
      refine ⟨?_, hh⟩
      rw [hw.2.2.1] at hh
      exact Linked_last_next h es none e hw.2.2.2 hh
  have hself := EventUnregister_heap_self q h e
  exact EventUnregister_not_linked (q.EventUnregister h e).1 (q.EventUnregister h e).2 e
    (by rw [hself]) (by rw [hself]) hhead htail

/-- C25 (refuted as stated): after entry 1 was registered twice on the empty queue, one
`EventUnregister(1)` leaves `head = tail = 1` and a second one empties the queue, so
unregistering twice does not have the effect of unregistering once. -/
theorem unregister_twice_differs :
    (Queue.run (Queue.empty, Heap.zero)
      [QueueOp.register 1 1, QueueOp.register 1 1, QueueOp.unregister 1]).1
        = Queue.mk ⟨some 1, some 1⟩ ∧
    (Queue.run (Queue.empty, Heap.zero)
      [QueueOp.register 1 1, QueueOp.register 1 1, QueueOp.unregister 1,
        QueueOp.unregister 1]).1 = Queue.mk ⟨none, none⟩ ∧
    (Queue.run (Queue.empty, Heap.zero)
      [QueueOp.register 1 1, QueueOp.register 1 1, QueueOp.unregister 1,
        QueueOp.unregister 1]).1 ≠
    (Queue.run (Queue.empty, Heap.zero)
      [QueueOp.register 1 1, QueueOp.register 1 1, QueueOp.unregister 1]).1 := by
  decide

/-- C25 (amended): `EventUnregister` of an entry that is not linked (`next = prev = nil`,
neither head nor tail of the queue) leaves the queue and every entry unchanged;
consequently, on a well-formed wait queue, unregistering the same entry twice has the
effect of unregistering it once. -/
theorem unregister_unlinked_and_idempotent (q : Queue) (h : Heap) (e : Ptr) :
    ((h e).next = none → (h e).prev = none → q.list.head ≠ some e → q.list.tail ≠ some e →
      q.EventUnregister h e = (q, h)) ∧
    (∀ es, q.Holds h es →
      (q.EventUnregister h e).1.EventUnregister (q.EventUnregister h e).2 e
        = q.EventUnregister h e) :=
  ⟨EventUnregister_not_linked q h e, fun es hw => EventUnregister_twice q h es e hw⟩

theorem unregister_unlinked_and_idempotent_witness :
    (Queue.mk ⟨some 1, some 2⟩).Holds
      (Heap.set (Heap.set Heap.zero 1 ⟨4, some 2, none⟩) 2 ⟨1, none, some 1⟩) [1, 2] ∧
    (Queue.mk ⟨some 1, some 2⟩).EventUnregister
      (Heap.set (Heap.set Heap.zero 1 ⟨4, some 2, none⟩) 2 ⟨1, none, some 1⟩) 7
      = (Queue.mk ⟨some 1, some 2⟩,
         Heap.set (Heap.set Heap.zero 1 ⟨4, some 2, none⟩) 2 ⟨1, none, some 1⟩) ∧
    ((Queue.mk ⟨some 1, some 2⟩).EventUnregister
        (Heap.set (Heap.set Heap.zero 1 ⟨4, some 2, none⟩) 2 ⟨1, none, some 1⟩) 2).1.EventUnregister
      ((Queue.mk ⟨some 1, some 2⟩).EventUnregister
        (Heap.set (Heap.set Heap.zero 1 ⟨4, some 2, none⟩) 2 ⟨1, none, some 1⟩) 2).2 2
      = (Queue.mk ⟨some 1, some 2⟩).EventUnregister
        (Heap.set (Heap.set Heap.zero 1 ⟨4, some 2, none⟩) 2 ⟨1, none, some 1⟩) 2 :=
  ⟨by decide,
   (unregister_unlinked_and_idempotent (Queue.mk ⟨some 1, some 2⟩)
      (Heap.set (Heap.set Heap.zero 1 ⟨4, some 2, none⟩) 2 ⟨1, none, some 1⟩) 7).1
      (by decide) (by decide) (by decide) (by decide),
   (unregister_unlinked_and_idempotent (Queue.mk ⟨some 1, some 2⟩)
      (Heap.set (Heap.set Heap.zero 1 ⟨4, some 2, none⟩) 2 ⟨1, none, some 1⟩) 2).2
      [1, 2] (by decide)⟩

/-! ### Well-formedness of the wait list -/

theorem walk_succ_some (h : Heap) (k : Nat) (a : Ptr) (es : List Ptr) :
    walk h (k + 1) (some a) = some es ↔
      ∃ rest, walk h k (h a).next = some rest ∧ es = a :: rest := by
  show (walk h k (h a).next).map (fun es => a :: es) = some es ↔ _
  rw [Option.map_eq_some']
  constructor
  · rintro ⟨rest, h1, h2⟩
    exact ⟨rest, h1, h2.symm⟩
  · rintro ⟨rest, h1, h2⟩
    exact ⟨rest, h1, h2.symm⟩

theorem walk_none (h : Heap) (n : Nat) (es : List Ptr) :
    walk h n none = some es ↔ es = [] := by
  cases n <;> simp [walk, eq_comm]

theorem walk_head (h : Heap) (n : Nat) (p : Option Ptr) (es : List Ptr)
    (hw : walk h n p = some es) : es.head? = p := by
  cases p with
  | none =>
    rw [(walk_none h n es).mp hw]
    rfl
  | some a =>
    cases n with
    | zero => cases hw
    | succ k =>
      obtain ⟨rest, -, h2⟩ := (walk_succ_some h k a es).mp hw
      rw [h2]
      rfl

/-- The walk from an entry does not depend on the number of steps allowed. -/
theorem walk_det (h : Heap) (n : Nat) :
    ∀ (m : Nat) (p : Option Ptr) (l1 l2 : List Ptr),
      walk h n p = some l1 → walk h m p = some l2 → l1 = l2 := by
  induction n with
  | zero =>
    intro m p l1 l2 h1 h2
    cases p with
    | none => rw [(walk_none h 0 l1).mp h1, (walk_none h m l2).mp h2]
    | some a => cases h1
  | succ k ih =>
    intro m p l1 l2 h1 h2
    cases p with
    | none => rw [(walk_none h _ l1).mp h1, (walk_none h m l2).mp h2]
    | some a =>
      cases m with
      | zero => cases h2
      | succ j =>
        obtain ⟨r1, hr1, e1⟩ := (walk_succ_some h k a l1).mp h1
        obtain ⟨r2, hr2, e2⟩ := (walk_succ_some h j a l2).mp h2
        rw [e1, e2, ih j _ r1 r2 hr1 hr2]

/-- From every entry visited, the walk reaches nil after at most as many entries. -/
theorem walk_mem (h : Heap) (n : Nat) :
    ∀ (p : Option Ptr) (l : List Ptr) (x : Ptr), walk h n p = some l → x ∈ l →
      ∃ m l2, walk h m (some x) = some l2 ∧ l2.length ≤ l.length := by
  induction n with
  | zero =>
    intro p l x hw hx
    cases p with
    | none =>
      rw [(walk_none h 0 l).mp hw] at hx
      cases hx
    | some a => cases hw
  | succ k ih =>
    intro p l x hw hx
    cases p with
    | none =>
      rw [(walk_none h _ l).mp hw] at hx
      cases hx
    | some a =>
      obtain ⟨rest, hr, e⟩ := (walk_succ_some h k a l).mp hw
      subst e
      rcases List.mem_cons.mp hx with hxa | hxr
      · subst hxa
        exact ⟨k + 1, x :: rest, hw, le_refl _⟩
      · obtain ⟨m, l2, h1, h2⟩ := ih _ rest x hr hxr
        exact ⟨m, l2, h1, by rw [List.length_cons]; omega⟩

/-- A walk that reaches nil has visited no entry twice. -/
theorem walk_nodup (h : Heap) (n : Nat) :
    ∀ (p : Option Ptr) (l : List Ptr), walk h n p = some l → l.Nodup := by
  induction n with
  | zero =>
    intro p l hw
    cases p with
    | none =>
      rw [(walk_none h 0 l).mp hw]
      exact List.nodup_nil
    | some a => cases hw
  | succ k ih =>
    intro p l hw
    cases p with
    | none =>
      rw [(walk_none h _ l).mp hw]
      exact List.nodup_nil
    | some a =>
      obtain ⟨rest, hr, e⟩ := (walk_succ_some h k a l).mp hw
      subst e
      refine List.nodup_cons.mpr ⟨?_, ih _ rest hr⟩
      intro hmem
      obtain ⟨m, l2, h1, h2⟩ := walk_mem h k _ rest a hr hmem
      have := walk_det h (k + 1) m (some a) (a :: rest) l2 hw h1
      rw [← this, List.length_cons] at h2
      omega

/-- A walk whose entries have matching `prev` links is a chain. -/
theorem Linked_of_walk (h : Heap) (n : Nat) :
    ∀ (p pp : Option Ptr) (es : List Ptr), walk h n p = some es →
      (∀ a ∈ p, (h a).prev = pp) →
      (∀ a ∈ es, ∀ b ∈ es, (h a).next = some b → (h b).prev = some a) →
      Linked h pp es := by
  induction n with
  | zero =>
    intro p pp es hw _ _
    cases p with
    | none =>
      rw [(walk_none h 0 es).mp hw]
      trivial
    | some a => cases hw
  | succ k ih =>
    intro p pp es hw hp hpairs
    cases p with
    | none =>
      rw [(walk_none h _ es).mp hw]
      trivial
    | some a =>
      obtain ⟨rest, hr, e⟩ := (walk_succ_some h k a es).mp hw
      subst e
      have hhd : rest.head? = (h a).next := walk_head h k _ rest hr
      refine ⟨hp a rfl, hhd.symm, ?_⟩
      apply ih _ (some a) rest hr
      · intro b hb
        have hb2 : (h a).next = some b := hb
        have hbr : b ∈ rest := by
          rw [← hhd] at hb2
          exact List.mem_of_mem_head? hb2
        exact hpairs a (List.mem_cons_self _ _) b (List.mem_cons_of_mem _ hbr) hb2
      · intro x hx y hy hxy
        exact hpairs x (List.mem_cons_of_mem _ hx) y (List.mem_cons_of_mem _ hy) hxy

/-- The conditions of well-formedness give the chained representation. -/
theorem Holds_of_WellFormed (q : Queue) (h : Heap) (es : List Ptr)
    (hw : q.WellFormed h es) : q.Holds h es := by
  obtain ⟨-, hhp, -, hpairs, hwalk, hlast⟩ := hw
  refine ⟨walk_nodup h _ _ es hwalk, (walk_head h _ _ es hwalk).symm, hlast.symm, ?_⟩
  exact Linked_of_walk h _ _ none es hwalk hhp
    (fun a ha b hb hab => (hpairs a ha b hb).mp hab)

/-- The chained representation satisfies every condition of well-formedness. -/
theorem WellFormed_of_Holds (q : Queue) (h : Heap) (es : List Ptr)
    (hw : q.Holds h es) : q.WellFormed h es := by
  obtain ⟨hnd, hhead, htail, hl⟩ := hw
  refine ⟨?_, ?_, ?_, ?_, ?_, htail.symm⟩
  · rw [hhead, htail, List.head?_eq_none_iff, List.getLast?_eq_none_iff]
  · intro a ha
    have ha2 : q.list.head = some a := ha
    rw [hhead] at ha2
    cases es with
    | nil => cases ha2
    | cons x r =>
      have hxa : x = a := Option.some.inj ha2
      rw [← hxa]
      exact hl.1
  · intro a ha
    have ha2 : q.list.tail = some a := ha
    rw [htail] at ha2
    exact Linked_last_next h es none a hl ha2
  · intro a ha b hb
    constructor
    · intro hab
      obtain ⟨xs, ys, hes⟩ := List.append_of_mem ha
      subst hes
      have hn := (Linked_links h a xs ys none hl).2
      rw [hab] at hn
      cases ys with
      | nil => cases hn
      | cons y r =>
        have hyb : y = b := (Option.some.inj hn).symm
        subst hyb
        have hl2 : Linked h none ((xs ++ [a]) ++ y :: r) := by
          rw [List.append_assoc]
          exact hl
        have hp := (Linked_links h y (xs ++ [a]) r none hl2).1
        rw [hp, lastOr_append]
        rfl
    · intro hba
      obtain ⟨xs, ys, hes⟩ := List.append_of_mem hb
      subst hes
      have hp := (Linked_links h b xs ys none hl).1
      rw [lastOr_none_eq, hba] at hp
      obtain ⟨zs, hzs⟩ := List.getLast?_eq_some_iff.mp hp.symm
      subst hzs
      have hl2 : Linked h none (zs ++ a :: b :: ys) := by
        have : (zs ++ [a]) ++ b :: ys = zs ++ a :: b :: ys := by simp
        rw [← this]
        exact hl
      exact (Linked_links h a zs (b :: ys) none hl2).2
  · rw [hhead]
    exact walk_linked h es none hl

/-- C23: well-formedness of the wait list (`head` nil iff `tail` nil, `head.prev = nil`,
`tail.next = nil`, `a.next = b` iff `b.prev = a`, a finite next-chain from `head` ending
at `tail`) is kept by `EventRegister` of an entry that is not in the list, which puts it
last, and by `EventUnregister` of an entry of the list, which takes it out. -/
theorem WellFormed_preserved (q : Queue) (h : Heap) (es : List Ptr) (e : Ptr)
    (m : EventMask) (hw : q.WellFormed h es) :
    (e ∉ es →
      (q.EventRegister h e m).1.WellFormed (q.EventRegister h e m).2 (es ++ [e])) ∧
    (e ∈ es →
      (q.EventUnregister h e).1.WellFormed (q.EventUnregister h e).2 (es.erase e)) :=
  ⟨fun hne => WellFormed_of_Holds _ _ _
      (EventRegister_holds q h es e m (Holds_of_WellFormed q h es hw) hne),
   fun hmem => WellFormed_of_Holds _ _ _
      (EventUnregister_holds q h es e (Holds_of_WellFormed q h es hw) hmem)⟩

theorem WellFormed_preserved_witness :
    (Queue.mk ⟨some 1, some 2⟩).WellFormed
      (Heap.set (Heap.set Heap.zero 1 ⟨4, some 2, none⟩) 2 ⟨1, none, some 1⟩) [1, 2] ∧
    ((Queue.mk ⟨some 1, some 2⟩).EventRegister
      (Heap.set (Heap.set Heap.zero 1 ⟨4, some 2, none⟩) 2 ⟨1, none, some 1⟩) 7 5).1.WellFormed
    ((Queue.mk ⟨some 1, some 2⟩).EventRegister
      (Heap.set (Heap.set Heap.zero 1 ⟨4, some 2, none⟩) 2 ⟨1, none, some 1⟩) 7 5).2
      ([1, 2] ++ [7]) ∧
    ((Queue.mk ⟨some 1, some 2⟩).EventUnregister
      (Heap.set (Heap.set Heap.zero 1 ⟨4, some 2, none⟩) 2 ⟨1, none, some 1⟩) 1).1.WellFormed
    ((Queue.mk ⟨some 1, some 2⟩).EventUnregister
      (Heap.set (Heap.set Heap.zero 1 ⟨4, some 2, none⟩) 2 ⟨1, none, some 1⟩) 1).2
      ([1, 2].erase 1) :=
  ⟨by decide,
   (WellFormed_preserved (Queue.mk ⟨some 1, some 2⟩)
      (Heap.set (Heap.set Heap.zero 1 ⟨4, some 2, none⟩) 2 ⟨1, none, some 1⟩) [1, 2] 7 5
      (by decide)).1 (by decide),
   (WellFormed_preserved (Queue.mk ⟨some 1, some 2⟩)
      (Heap.set (Heap.set Heap.zero 1 ⟨4, some 2, none⟩) 2 ⟨1, none, some 1⟩) [1, 2] 1 5
      (by decide)).2 (by decide)⟩

/-! ### `VectorisedView.Read` on shared storage -/

theorem Slice.read_length (m : Mem) (s : Slice) : (s.read m).length = s.len := by
  unfold Slice.read
  rw [List.length_map, List.length_range]

theorem Slice.read_congr (m1 m2 : Mem) (s : Slice)
    (h : ∀ a, s.off ≤ a → a < s.off + s.len → m1 a = m2 a) : s.read m1 = s.read m2 := by
  unfold Slice.read
  apply List.map_congr_left
  intro i hi
  have hi2 : i < s.len := List.mem_range.mp hi
  exact h (s.off + i) (by omega) (by omega)

theorem Slice.read_split (m : Mem) (off l1 l2 : Nat) :
    Slice.read m ⟨off, l1 + l2⟩ = Slice.read m ⟨off, l1⟩ ++ Slice.read m ⟨off + l1, l2⟩ := by
  unfold Slice.read
  simp only [List.range_add, List.map_append, List.map_map]
  congr 1
  apply List.map_congr_left
  intro i _
  simp only [Function.comp_apply]
  rw [Nat.add_assoc]

theorem Slice.read_take (m : Mem) (s : Slice) (c : Nat) (hc : c ≤ s.len) :
    (s.read m).take c = (s.first c).read m := by
  have hs : s = ⟨s.off, c + (s.len - c)⟩ := by
    cases s with
    | mk o l =>
      simp only [Slice.mk.injEq, true_and]
      simp only at hc
      omega
  rw [hs, Slice.read_split]
  exact List.take_left' (Slice.read_length m _)

theorem Slice.read_drop (m : Mem) (s : Slice) (c : Nat) (hc : c ≤ s.len) :
    (s.read m).drop c = (s.after c).read m := by
  have hs : s = ⟨s.off, c + (s.len - c)⟩ := by
    cases s with
    | mk o l =>
      simp only [Slice.mk.injEq, true_and]
      simp only at hc
      omega
  have h1 : (s.read m) = Slice.read m ⟨s.off, c⟩ ++ Slice.read m ⟨s.off + c, s.len - c⟩ := by
    rw [← Slice.read_split, ← hs]
  rw [h1]
  exact List.drop_left' (Slice.read_length m _)

theorem Mem.write_outside (m : Mem) (off : Nat) (bs : List Byte) (a : Nat)
    (h : a < off ∨ off + bs.length ≤ a) : Mem.write m off bs a = m a := by
  unfold Mem.write
  by_cases h1 : off ≤ a
  · rw [if_pos h1, List.getElem?_eq_none (by omega)]
    rfl
  · rw [if_neg h1]

theorem Mem.write_read (m : Mem) (off : Nat) (bs : List Byte) :
    Slice.read (Mem.write m off bs) ⟨off, bs.length⟩ = bs := by
  apply List.ext_getElem
  · rw [Slice.read_length]
  · intro i h1 h2
    unfold Slice.read Mem.write
    simp only [List.getElem_map, List.getElem_range, Nat.le_add_right, if_true,
      Nat.add_sub_cancel_left]
    rw [List.getElem?_eq_getElem h2]
    rfl

/-- A `copy` into `b[c:]` seen on the bytes of `b`: the value-level `copy` on what `b`
and the source held before. -/
theorem copyMem_read_dst (m : Mem) (b src : Slice) (c : Nat) (hc : c ≤ b.len) :
    b.read (copyMem m (b.after c) src)
      = (b.read m).take c ++ copy ((b.read m).drop c) (src.read m) := by
  have hk : ((src.read m).take (b.len - c)).length ≤ b.len - c := by
    rw [List.length_take]; omega
  have hbs : b = ⟨b.off, c + (((src.read m).take (b.len - c)).length
      + (b.len - c - ((src.read m).take (b.len - c)).length))⟩ := by
    cases b with
    | mk o l =>
      simp only [Slice.mk.injEq, true_and]
      simp only at hc hk
      omega
  have hsplit : ∀ mm : Mem, b.read mm
      = Slice.read mm ⟨b.off, c⟩
        ++ (Slice.read mm ⟨b.off + c, ((src.read m).take (b.len - c)).length⟩
        ++ Slice.read mm ⟨b.off + c + ((src.read m).take (b.len - c)).length,
            b.len - c - ((src.read m).take (b.len - c)).length⟩) := by
    intro mm
    rw [← Slice.read_split, ← Slice.read_split, ← hbs]
  have hw : copyMem m (b.after c) src
      = Mem.write m (b.off + c) ((src.read m).take (b.len - c)) := rfl
  have h1 : Slice.read (copyMem m (b.after c) src) ⟨b.off, c⟩ = Slice.read m ⟨b.off, c⟩ := by
    apply Slice.read_congr
    intro a ha1 ha2
    rw [hw]
    exact Mem.write_outside m _ _ a (Or.inl (by simpa using ha2))
  have h3 : Slice.read (copyMem m (b.after c) src)
        ⟨b.off + c + ((src.read m).take (b.len - c)).length,
          b.len - c - ((src.read m).take (b.len - c)).length⟩
      = Slice.read m ⟨b.off + c + ((src.read m).take (b.len - c)).length,
          b.len - c - ((src.read m).take (b.len - c)).length⟩ := by
    apply Slice.read_congr
    intro a ha1 ha2
    rw [hw]
    exact Mem.write_outside m _ _ a (Or.inr (by simpa using ha1))
  have h2 : Slice.read (copyMem m (b.after c) src)
        ⟨b.off + c, ((src.read m).take (b.len - c)).length⟩
      = (src.read m).take (b.len - c) := by
    rw [hw]
    exact Mem.write_read m _ _
  have hd : (b.read m).drop c = (b.after c).read m := Slice.read_drop m b c hc
  have hdl : ((b.read m).drop c).length = b.len - c := by
    rw [List.length_drop, Slice.read_length]
  rw [hsplit (copyMem m (b.after c) src), h1, h2, h3]
  have ht : (b.read m).take c = Slice.read m ⟨b.off, c⟩ := Slice.read_take m b c hc
  rw [ht]
  congr 1
  unfold copy
  rw [hdl]
  congr 1
  -- the bytes of `b` after the copied ones
  have hrest : Slice.read m ⟨b.off + c + ((src.read m).take (b.len - c)).length,
        b.len - c - ((src.read m).take (b.len - c)).length⟩
      = ((b.read m).drop c).drop ((src.read m).take (b.len - c)).length := by
    rw [hd, Slice.read_drop m (b.after c) _ (by simp [Slice.after])]
    rfl
  rw [hrest]
  by_cases hle : (src.read m).length ≤ b.len - c
  · rw [List.take_of_length_le hle]
  · have h4 : ((src.read m).take (b.len - c)).length = b.len - c := by
      rw [List.length_take]; omega
    rw [h4, List.drop_of_length_le (by rw [hdl]), List.drop_of_length_le (by rw [hdl]; omega)]

/-- A `copy` into `b[c:]` changes no byte outside `b`. -/
theorem copyMem_outside (m : Mem) (b src : Slice) (c : Nat) (a : Nat) (hc : c ≤ b.len)
    (ha : ¬ (b.off ≤ a ∧ a < b.off + b.len)) : copyMem m (b.after c) src a = m a := by
  have hk : ((src.read m).take (b.len - c)).length ≤ b.len - c := by
    rw [List.length_take]; omega
  show Mem.write m (b.off + c) ((src.read m).take (b.len - c)) a = m a
  apply Mem.write_outside
  omega

/-- On any storage, shared or not, `copied`, `err`, `size` and the lengths of the
remaining views of `Read` are those of the value-level loop on views of the same
lengths. -/
theorem ReadMemLoop_lengths (views : List Slice) :
    ∀ (vals : List View) (size : Int) (m : Mem) (b : Slice) (bv : List Byte)
      (count copied : Nat), vals.map List.length = views.map Slice.len →
      (ReadMemLoop views size m b count copied).copied
        = (ReadLoop vals size bv count copied).copied ∧
      (ReadMemLoop views size m b count copied).err
        = (ReadLoop vals size bv count copied).err ∧
      (ReadMemLoop views size m b count copied).vv.size
        = (ReadLoop vals size bv count copied).vv.size ∧
      (ReadMemLoop views size m b count copied).vv.views.map Slice.len
        = (ReadLoop vals size bv count copied).vv.views.map List.length := by
  induction views with
  | nil =>
    intro vals size m b bv count copied hl
    have hv : vals = [] := by
      cases vals with
      | nil => rfl
      | cons x r => simp at hl
    subst hv
    unfold ReadMemLoop ReadLoop ReadMemExit ReadExit
    split <;> exact ⟨rfl, rfl, rfl, rfl⟩
  | cons v rest ih =>
    intro vals size m b bv count copied hl
    cases vals with
    | nil => simp at hl
    | cons x r =>
      simp only [List.map_cons, List.cons.injEq] at hl
      obtain ⟨hx, hr⟩ := hl
      unfold ReadMemLoop ReadLoop
      by_cases hc : count > 0
      · simp only [hc, if_true]
        by_cases hlt : count < v.len
        · have hlt2 : count < x.length := by rw [hx]; exact hlt
          simp only [hlt, hlt2, if_true, List.map_cons, true_and]
          simp only [Slice.TrimFront, Slice.after, View.TrimFront, List.length_drop, hx, hr]
        · have hlt2 : ¬ count < x.length := by rw [hx]; exact hlt
          simp only [hlt, hlt2, if_false]
          have hsz : (SliceVectorisedView.removeFirst { views := v :: rest, size := size }).size
              = (VectorisedView.removeFirst { views := x :: r, size := size }).size := by
            show wrapInt (size - v.len) = wrapInt (size - x.length)
            rw [hx]
          rw [hsz, ← hx]
          exact ih r _ _ b _ _ _ hr
      · simp only [hc, if_false]
        unfold ReadMemExit ReadExit
        split
        · exact ⟨rfl, rfl, rfl, by simp [hx, hr]⟩
        · exact ⟨rfl, rfl, rfl, by simp [hx, hr]⟩

/-- A slice apart from `b` reads the same in two memories that agree outside `b`. -/
theorem Slice.Disjoint.read_eq {v b : Slice} (hd : v.Disjoint b) (m1 m2 : Mem)
    (h : ∀ a, ¬ (b.off ≤ a ∧ a < b.off + b.len) → m1 a = m2 a) : v.read m1 = v.read m2 := by
  apply Slice.read_congr
  intro a ha1 ha2
  apply h
  unfold Slice.Disjoint at hd
  omega

theorem Slice.Disjoint.after {v b : Slice} (hd : v.Disjoint b) (c : Nat) :
    (v.after c).Disjoint b := by
  unfold Slice.Disjoint at hd ⊢
  unfold Slice.after
  simp only
  omega

/-- With a destination `b` that shares no byte with the views, the loop of `Read` on the
memory does what the value-level loop does on the bytes held: same remaining views, same
bytes in `b`; no byte outside `b` changes and the remaining views stay apart from `b`. -/
theorem ReadMemLoop_values (views : List Slice) :
    ∀ (size : Int) (m : Mem) (b : Slice) (count copied : Nat),
      copied + count ≤ b.len → (∀ v ∈ views, v.Disjoint b) →
      (ReadMemLoop views size m b count copied).vv.views.map
          (Slice.read (ReadMemLoop views size m b count copied).mem)
        = (ReadLoop (views.map (Slice.read m)) size (b.read m) count copied).vv.views ∧
      b.read (ReadMemLoop views size m b count copied).mem
        = (ReadLoop (views.map (Slice.read m)) size (b.read m) count copied).b ∧
      (∀ a, ¬ (b.off ≤ a ∧ a < b.off + b.len) →
        (ReadMemLoop views size m b count copied).mem a = m a) ∧
      (∀ v ∈ (ReadMemLoop views size m b count copied).vv.views, v.Disjoint b) := by
  induction views with
  | nil =>
    intro size m b count copied _ _
    unfold ReadMemLoop ReadLoop ReadMemExit ReadExit
    simp only [List.map_nil]
    split <;> exact ⟨rfl, rfl, fun _ _ => rfl, fun v hv => by cases hv⟩
  | cons v rest ih =>
    intro size m b count copied hcc hdis
    have hdv : v.Disjoint b := hdis v (List.mem_cons_self _ _)
    have hdr : ∀ x ∈ rest, x.Disjoint b := fun x hx => hdis x (List.mem_cons_of_mem _ hx)
    have hcb : copied ≤ b.len := by omega
    unfold ReadMemLoop ReadLoop
    simp only [List.map_cons]
    by_cases hc : count > 0
    · simp only [hc, if_true, Slice.read_length]
      by_cases hlt : count < v.len
      · simp only [hlt, if_true]
        have hout : ∀ a, ¬ (b.off ≤ a ∧ a < b.off + b.len) →
            copyMem m (b.after copied) (v.first count) a = m a :=
          fun a ha => copyMem_outside m b (v.first count) copied a hcb ha
        refine ⟨?_, ?_, hout, ?_⟩
        · simp only [List.map_cons, List.cons.injEq]
          constructor
          · show Slice.read _ (v.after count) = (Slice.read m v).drop count
            rw [(hdv.after count).read_eq _ m hout]
            exact (Slice.read_drop m v count (by omega)).symm
          · apply List.map_congr_left
            intro x hx
            exact (hdr x hx).read_eq _ m hout
        · rw [copyMem_read_dst m b (v.first count) copied hcb,
            Slice.read_take m v count (by omega)]
        · intro x hx
          rcases List.mem_cons.mp hx with hxv | hxr
          · rw [hxv]
            exact hdv.after count
          · exact hdr x hxr
      · simp only [hlt, if_false]
        have hout : ∀ a, ¬ (b.off ≤ a ∧ a < b.off + b.len) →
            copyMem m (b.after copied) v a = m a :=
          fun a ha => copyMem_outside m b v copied a hcb ha
        have hsz : (SliceVectorisedView.removeFirst { views := v :: rest, size := size }).size
            = (VectorisedView.removeFirst
                { views := v.read m :: rest.map (Slice.read m), size := size }).size := by
          show wrapInt (size - v.len) = wrapInt (size - (v.read m).length)
          rw [Slice.read_length]
        have hrest : rest.map (Slice.read (copyMem m (b.after copied) v))
            = rest.map (Slice.read m) := by
          apply List.map_congr_left
          intro x hx
          exact (hdr x hx).read_eq _ m hout
        obtain ⟨h1, h2, h3, h4⟩ :=
          ih (SliceVectorisedView.removeFirst { views := v :: rest, size := size }).size
            (copyMem m (b.after copied) v) b (count - v.len) (copied + v.len)
            (by omega) hdr
        rw [hrest, copyMem_read_dst m b v copied hcb] at h1 h2
        rw [← hsz]
        refine ⟨h1, h2, ?_, h4⟩
        intro a ha
        rw [h3 a ha, hout a ha]
    · simp only [hc, if_false]
      unfold ReadMemExit ReadExit
      split
      · exact ⟨rfl, rfl, fun _ _ => rfl, hdis⟩
      · exact ⟨rfl, rfl, fun _ _ => rfl, hdis⟩

/-- On any storage, `copied`, `err`, `size` and the lengths of the remaining views of
`Read` are those of `Read` on the values held. -/
theorem ReadMem_lengths (vv : SliceVectorisedView) (m : Mem) (b : Slice) :
    (vv.Read m b).copied = ((vv.values m).Read (b.read m)).copied ∧
    (vv.Read m b).err = ((vv.values m).Read (b.read m)).err ∧
    (vv.Read m b).vv.size = ((vv.values m).Read (b.read m)).vv.size ∧
    (vv.Read m b).vv.views.map Slice.len
      = ((vv.values m).Read (b.read m)).vv.views.map List.length := by
  have h := ReadMemLoop_lengths vv.views (vv.views.map (Slice.read m)) vv.size m b
    (b.read m) b.len 0 (by
      rw [List.map_map]
      apply List.map_congr_left
      intro v _
      exact Slice.read_length m v)
  unfold SliceVectorisedView.Read VectorisedView.Read SliceVectorisedView.values
  rw [Slice.read_length]
  exact h

/-- With a destination that shares no byte with the views, `Read` on the memory is `Read`
on the values held. -/
theorem ReadMem_values (vv : SliceVectorisedView) (m : Mem) (b : Slice)
    (hdis : ∀ v ∈ vv.views, v.Disjoint b) :
    (vv.Read m b).vv.values (vv.Read m b).mem = ((vv.values m).Read (b.read m)).vv ∧
    b.read (vv.Read m b).mem = ((vv.values m).Read (b.read m)).b ∧
    (∀ a, ¬ (b.off ≤ a ∧ a < b.off + b.len) → (vv.Read m b).mem a = m a) ∧
    (∀ v ∈ (vv.Read m b).vv.views, v.Disjoint b) := by
  obtain ⟨h1, h2, h3, h4⟩ := ReadMemLoop_values vv.views vv.size m b b.len 0 (by omega) hdis
  obtain ⟨-, -, hs, -⟩ := ReadMem_lengths vv m b
  unfold SliceVectorisedView.Read VectorisedView.Read SliceVectorisedView.values at hs ⊢
  rw [Slice.read_length] at hs ⊢
  refine ⟨?_, h2, h3, h4⟩
  cases hV : ReadLoop (vv.views.map (Slice.read m)) vv.size (b.read m) b.len 0 with
  | mk vvV bV cV eV =>
    rw [hV] at h1 hs
    cases vvV with
    | mk viewsV sizeV =>
      simp only at h1 hs
      simp only [VectorisedView.mk.injEq]
      exact ⟨h1, hs⟩

/-- The views left by the loop of `Read`, as slices: `k` whole views are gone from the
front and the first remaining view has lost `c` bytes at its front. -/
theorem ReadMemLoop_views (views : List Slice) :
    ∀ (size : Int) (m : Mem) (b : Slice) (count copied : Nat),
      ∃ k c : Nat,
        (ReadMemLoop views size m b count copied).vv.views
          = (views.drop k).modifyHead (fun v => v.after c) ∧
        ((views.take k).map Slice.len).sum + c = min count (views.map Slice.len).sum ∧
        (c = 0 ∨ ∃ v rest, views.drop k = v :: rest ∧ c < v.len) := by
  induction views with
  | nil =>
    intro size m b count copied
    refine ⟨0, 0, ?_, by simp, Or.inl rfl⟩
    unfold ReadMemLoop ReadMemExit
    split <;> rfl
  | cons v rest ih =>
    intro size m b count copied
    unfold ReadMemLoop
    by_cases hc : count > 0
    · simp only [hc, if_true]
      by_cases hlt : count < v.len
      · simp only [hlt, if_true]
        refine ⟨0, count, rfl, ?_, Or.inr ⟨v, rest, rfl, hlt⟩⟩
        simp only [List.take_zero, List.map_nil, List.sum_nil, List.map_cons, List.sum_cons]
        omega
      · simp only [hlt, if_false]
        obtain ⟨k, c, h1, h2, h3⟩ :=
          ih (SliceVectorisedView.removeFirst { views := v :: rest, size := size }).size
            (copyMem m (b.after copied) v) b (count - v.len) (copied + v.len)
        refine ⟨k + 1, c, ?_, ?_, ?_⟩
        · rw [h1]
          rfl
        · clear h3 h1
          simp only [List.take_succ_cons, List.map_cons, List.sum_cons]
          omega
        · exact h3
    · simp only [hc, if_false]
      refine ⟨0, 0, ?_, by simp; omega, Or.inl rfl⟩
      unfold ReadMemExit
      split <;> rfl

/-- With a destination that shares no byte with the views, reading to the end on the
memory is reading to the end on the values held. -/
theorem readAllMem_eq_readAll (fuel : Nat) :
    ∀ (vv : SliceVectorisedView) (m : Mem) (b : Slice), (∀ v ∈ vv.views, v.Disjoint b) →
      readAllMem fuel vv m b = readAll fuel (vv.values m) (b.read m) := by
  induction fuel with
  | zero =>
    intro vv m b _
    rfl
  | succ n ih =>
    intro vv m b hdis
    obtain ⟨hc, he, -, -⟩ := ReadMem_lengths vv m b
    obtain ⟨h1, h2, -, h4⟩ := ReadMem_values vv m b hdis
    unfold readAllMem readAll
    rw [he]
    by_cases hE : ((vv.values m).Read (b.read m)).err = some error.EOF
    · rw [if_pos hE, if_pos hE]
    · rw [if_neg hE, if_neg hE, ih _ _ b h4, h1, h2, hc]

/-- On any storage `Read` returns `min(len(b), total length of the views)`. -/
theorem ReadMem_copied (vv : SliceVectorisedView) (m : Mem) (b : Slice) :
    (vv.Read m b).copied = min b.len (vv.views.map Slice.len).sum := by
  obtain ⟨hc, -, -, -⟩ := ReadMem_lengths vv m b
  obtain ⟨h, -, -, -⟩ := Read_values_copies_min (vv.values m) (b.read m)
  rw [hc, h, Slice.read_length]
  congr 2
  show ((vv.views.map (Slice.read m)).map List.length) = vv.views.map Slice.len
  rw [List.map_map]
  apply List.map_congr_left
  intro v _
  exact Slice.read_length m v

/-- C6 (refuted as stated): with the memory `[1, 2, 3, 4]`, views `mem[0:2]`, `mem[2:4]`
and the destination `b = mem[1:4]`, which shares storage with the views, `Read` returns 3
and leaves `[1, 2, 2]` in `b`, not the first three bytes `[1, 2, 3]` that the views held. -/
theorem Read_overlap_destination :
    ((SliceVectorisedView.mk [⟨0, 2⟩, ⟨2, 2⟩] 4).Read (Mem.ofList [1, 2, 3, 4]) ⟨1, 3⟩).copied
      = 3 ∧
    Slice.read ((SliceVectorisedView.mk [⟨0, 2⟩, ⟨2, 2⟩] 4).Read
      (Mem.ofList [1, 2, 3, 4]) ⟨1, 3⟩).mem ⟨1, 3⟩ = [1, 2, 2] ∧
    (((SliceVectorisedView.mk [⟨0, 2⟩, ⟨2, 2⟩] 4).values
      (Mem.ofList [1, 2, 3, 4])).views.flatten).take 3 = [1, 2, 3] ∧
    (Slice.read ((SliceVectorisedView.mk [⟨0, 2⟩, ⟨2, 2⟩] 4).Read
        (Mem.ofList [1, 2, 3, 4]) ⟨1, 3⟩).mem ⟨1, 3⟩).take 3 ≠
      (((SliceVectorisedView.mk [⟨0, 2⟩, ⟨2, 2⟩] 4).values
        (Mem.ofList [1, 2, 3, 4])).views.flatten).take 3 := by
  decide

/-- C6 (amended): `Read` returns `n = min(len(b), total length of the views)` for every
vectorised view and destination `b`; when `b` shares no storage with the views it leaves
in `b[0:n]` the first `n` bytes of the in-order concatenation of the views, leaves
`b[n:]` untouched and changes no byte outside `b`. -/
theorem ReadMem_copies_min (vv : SliceVectorisedView) (m : Mem) (b : Slice) :
    (vv.Read m b).copied = min b.len (vv.views.map Slice.len).sum ∧
    ((∀ v ∈ vv.views, v.Disjoint b) →
      (b.read (vv.Read m b).mem).take (vv.Read m b).copied
        = ((vv.values m).views.flatten).take (vv.Read m b).copied ∧
      (b.read (vv.Read m b).mem).drop (vv.Read m b).copied
        = (b.read m).drop (vv.Read m b).copied ∧
      (b.read (vv.Read m b).mem).length = b.len ∧
      ∀ a, ¬ (b.off ≤ a ∧ a < b.off + b.len) → (vv.Read m b).mem a = m a) := by
  refine ⟨ReadMem_copied vv m b, fun hdis => ?_⟩
  obtain ⟨hc, -, -, -⟩ := ReadMem_lengths vv m b
  obtain ⟨-, h2, h3, -⟩ := ReadMem_values vv m b hdis
  obtain ⟨-, v2, v3, -⟩ := Read_values_copies_min (vv.values m) (b.read m)
  refine ⟨?_, ?_, Slice.read_length _ _, h3⟩
  · rw [h2, hc]
    exact v2
  · rw [h2, hc]
    exact v3

theorem ReadMem_copies_min_witness :
    (∀ v ∈ (SliceVectorisedView.mk [⟨0, 2⟩, ⟨2, 0⟩, ⟨2, 3⟩] 5).views,
      v.Disjoint ⟨5, 2⟩) ∧
    ((SliceVectorisedView.mk [⟨0, 2⟩, ⟨2, 0⟩, ⟨2, 3⟩] 5).Read
      (Mem.ofList [1, 2, 3, 4, 5, 9, 9]) ⟨5, 2⟩).copied = 2 ∧
    Slice.read ((SliceVectorisedView.mk [⟨0, 2⟩, ⟨2, 0⟩, ⟨2, 3⟩] 5).Read
      (Mem.ofList [1, 2, 3, 4, 5, 9, 9]) ⟨5, 2⟩).mem ⟨5, 2⟩ = [1, 2] :=
  ⟨by decide, by decide,
   ((List.take_of_length_le (by decide)).symm.trans
     (((ReadMem_copies_min (SliceVectorisedView.mk [⟨0, 2⟩, ⟨2, 0⟩, ⟨2, 3⟩] 5)
       (Mem.ofList [1, 2, 3, 4, 5, 9, 9]) ⟨5, 2⟩).2 (by decide)).1)).trans (by decide)⟩

/-- C21 (refuted as stated): with the memory `[1, 2, 3, 4]`, views `mem[0:2]`, `mem[2:4]`
and the destination `b = mem[1:4]`, which shares storage with the views, `Read` copies 3
bytes and the view that remains holds `[2]`, not the unread byte `[4]`: the copy into `b`
has overwritten it. -/
theorem Read_overlap_remaining :
    ((SliceVectorisedView.mk [⟨0, 2⟩, ⟨2, 2⟩] 4).Read (Mem.ofList [1, 2, 3, 4]) ⟨1, 3⟩).copied
      = 3 ∧
    (((SliceVectorisedView.mk [⟨0, 2⟩, ⟨2, 2⟩] 4).Read
        (Mem.ofList [1, 2, 3, 4]) ⟨1, 3⟩).vv.values
      ((SliceVectorisedView.mk [⟨0, 2⟩, ⟨2, 2⟩] 4).Read
        (Mem.ofList [1, 2, 3, 4]) ⟨1, 3⟩).mem).views = [[2]] ∧
    (((SliceVectorisedView.mk [⟨0, 2⟩, ⟨2, 2⟩] 4).values
      (Mem.ofList [1, 2, 3, 4])).views.flatten).drop 3 = [4] ∧
    (((SliceVectorisedView.mk [⟨0, 2⟩, ⟨2, 2⟩] 4).Read
        (Mem.ofList [1, 2, 3, 4]) ⟨1, 3⟩).vv.values
      ((SliceVectorisedView.mk [⟨0, 2⟩, ⟨2, 2⟩] 4).Read
        (Mem.ofList [1, 2, 3, 4]) ⟨1, 3⟩).mem).views.flatten ≠
      (((SliceVectorisedView.mk [⟨0, 2⟩, ⟨2, 2⟩] 4).values
        (Mem.ofList [1, 2, 3, 4])).views.flatten).drop 3 := by
  decide

/-- C21 (amended): after `Read` has copied `n` bytes the remaining views are the original
ones with `k` whole views removed from the front and at most the first remaining view
trimmed at its front; when the destination shares no storage with the views, the
concatenation of the remaining views is the original concatenation without its first `n`
bytes, and the copied bytes followed by the remaining ones are the original bytes. -/
theorem ReadMem_remaining (vv : SliceVectorisedView) (m : Mem) (b : Slice) :
    (∃ k c : Nat,
      (vv.Read m b).vv.views = (vv.views.drop k).modifyHead (fun v => v.after c) ∧
      ((vv.views.take k).map Slice.len).sum + c = (vv.Read m b).copied ∧
      (c = 0 ∨ ∃ v rest, vv.views.drop k = v :: rest ∧ c < v.len)) ∧
    ((∀ v ∈ vv.views, v.Disjoint b) →
      ((vv.Read m b).vv.values (vv.Read m b).mem).views.flatten
        = ((vv.values m).views.flatten).drop (vv.Read m b).copied ∧
      (b.read (vv.Read m b).mem).take (vv.Read m b).copied
          ++ ((vv.Read m b).vv.values (vv.Read m b).mem).views.flatten
        = (vv.values m).views.flatten) := by
  constructor
  · obtain ⟨k, c, h1, h2, h3⟩ := ReadMemLoop_views vv.views vv.size m b b.len 0
    exact ⟨k, c, h1, by rw [ReadMem_copied]; exact h2, h3⟩
  · intro hdis
    obtain ⟨hc, -, -, -⟩ := ReadMem_lengths vv m b
    obtain ⟨h1, h2, -, -⟩ := ReadMem_values vv m b hdis
    obtain ⟨v1, v2, -⟩ := Read_values_remaining (vv.values m) (b.read m)
    rw [h1, h2, hc]
    exact ⟨v1, v2⟩

theorem ReadMem_remaining_witness :
    (∀ v ∈ (SliceVectorisedView.mk [⟨0, 2⟩, ⟨2, 0⟩, ⟨2, 3⟩] 5).views,
      v.Disjoint ⟨5, 3⟩) ∧
    (((SliceVectorisedView.mk [⟨0, 2⟩, ⟨2, 0⟩, ⟨2, 3⟩] 5).Read
        (Mem.ofList [1, 2, 3, 4, 5, 9, 9, 9]) ⟨5, 3⟩).vv.values
      ((SliceVectorisedView.mk [⟨0, 2⟩, ⟨2, 0⟩, ⟨2, 3⟩] 5).Read
        (Mem.ofList [1, 2, 3, 4, 5, 9, 9, 9]) ⟨5, 3⟩).mem).views.flatten = [4, 5] :=
  ⟨by decide,
   (((ReadMem_remaining (SliceVectorisedView.mk [⟨0, 2⟩, ⟨2, 0⟩, ⟨2, 3⟩] 5)
      (Mem.ofList [1, 2, 3, 4, 5, 9, 9, 9]) ⟨5, 3⟩).2 (by decide)).1).trans (by decide)⟩

/-- C22 (refuted as stated): with the memory `[1, 2, 3, 4]`, views `mem[0:2]`,
`mem[2:4]` and the 3-byte destination `mem[1:4]`, which shares storage with the views,
reading until `io.EOF` yields the chunks `[1, 2, 2]` and `[2]`, not the bytes
`[1, 2, 3, 4]` that the views held. -/
theorem chunked_read_overlap :
    1 ≤ (Slice.mk 1 3).len ∧
    readAllMem 5 (SliceVectorisedView.mk [⟨0, 2⟩, ⟨2, 2⟩] 4) (Mem.ofList [1, 2, 3, 4]) ⟨1, 3⟩
      = some [1, 2, 2, 2] ∧
    ((SliceVectorisedView.mk [⟨0, 2⟩, ⟨2, 2⟩] 4).values
      (Mem.ofList [1, 2, 3, 4])).views.flatten = [1, 2, 3, 4] ∧
    readAllMem 5 (SliceVectorisedView.mk [⟨0, 2⟩, ⟨2, 2⟩] 4) (Mem.ofList [1, 2, 3, 4]) ⟨1, 3⟩ ≠
      some ((SliceVectorisedView.mk [⟨0, 2⟩, ⟨2, 2⟩] 4).values
        (Mem.ofList [1, 2, 3, 4])).views.flatten := by
  decide

/-- C22 (amended): for every vectorised view and every destination of `k ≥ 1` bytes that
shares no storage with the views, reading until `io.EOF` and concatenating the bytes of
each call gives exactly the in-order concatenation of the views; `io.EOF` is reached
within one call more than there are bytes, and the result is the same for any two such
vectorised views with the same concatenation. -/
theorem chunked_readMem_round_trip (vv : SliceVectorisedView) (m : Mem) (b : Slice)
    (hk : 1 ≤ b.len) (hdis : ∀ v ∈ vv.views, v.Disjoint b) :
    readAllMem ((vv.values m).views.flatten.length + 1) vv m b
      = some (vv.values m).views.flatten ∧
    (∀ fuel, (vv.values m).views.flatten.length < fuel →
      readAllMem fuel vv m b = some (vv.values m).views.flatten) ∧
    (∀ vv2 : SliceVectorisedView, (∀ v ∈ vv2.views, v.Disjoint b) →
      (vv2.values m).views.flatten = (vv.values m).views.flatten →
      readAllMem ((vv2.values m).views.flatten.length + 1) vv2 m b
        = readAllMem ((vv.values m).views.flatten.length + 1) vv m b) := by
  have hb : 1 ≤ (b.read m).length := by rw [Slice.read_length]; exact hk
  have key : ∀ (w : SliceVectorisedView) (fuel : Nat), (∀ v ∈ w.views, v.Disjoint b) →
      (w.values m).views.flatten.length < fuel →
      readAllMem fuel w m b = some (w.values m).views.flatten := by
    intro w fuel hw hf
    rw [readAllMem_eq_readAll fuel w m b hw]
    exact readAll_spec fuel (w.values m) (b.read m) hb hf
  refine ⟨key vv _ hdis (Nat.lt_succ_self _), fun fuel hf => key vv fuel hdis hf, ?_⟩
  intro vv2 h2 heq
  rw [key vv2 _ h2 (Nat.lt_succ_self _), key vv _ hdis (Nat.lt_succ_self _), heq]

theorem chunked_readMem_round_trip_witness :
    1 ≤ (Slice.mk 5 2).len ∧
    (∀ v ∈ (SliceVectorisedView.mk [⟨0, 2⟩, ⟨2, 0⟩, ⟨2, 3⟩] 5).views,
      v.Disjoint ⟨5, 2⟩) ∧
    readAllMem 6 (SliceVectorisedView.mk [⟨0, 2⟩, ⟨2, 0⟩, ⟨2, 3⟩] 5)
      (Mem.ofList [1, 2, 3, 4, 5, 9, 9]) ⟨5, 2⟩ = some [1, 2, 3, 4, 5] :=
  ⟨by decide, by decide,
   (chunked_readMem_round_trip (SliceVectorisedView.mk [⟨0, 2⟩, ⟨2, 0⟩, ⟨2, 3⟩] 5)
      (Mem.ofList [1, 2, 3, 4, 5, 9, 9]) ⟨5, 2⟩ (by decide) (by decide)).1⟩

end Spos
